import Mathlib

/-!
Verification development for the AI-Enhanced-Minesweeper repository.

The Python sources `board.py` and `ai_controller.py` are shallowly embedded:
the `Board` class becomes the `Board` structure with its numpy arrays turned
into total functions `Nat → Nat → _` (indexed as in the source: the first
index ranges over `height`, the second over `width`), the python `set` of
mine positions becomes a `Finset`, python ints become `Int`/`Nat`, and python
floats (only used for risk scores and the difficulty factor) become `ℚ`.
Randomness (`np.random.choice`, `np.random.randint`, probability draws) is
made explicit as parameters of the embedded functions.
-/

namespace Minesweeper

/-- Distance between two naturals, `|a - b|` in the source's python ints. -/
def natDist (a b : Nat) : Nat := (a - b) + (b - a)

/-- Manhattan distance, embedding `AIController._manhattan_distance`. -/
def manhattan (p q : Nat × Nat) : Nat := natDist p.1 q.1 + natDist p.2 q.2

/-- Embedding of the `Board` class state: `board` is the value grid
(-1 for mines, otherwise the adjacent-mine count), `revealed` and `flagged`
the boolean masks, `minePositions` the python set `mine_positions`. -/
structure Board where
  width : Nat
  height : Nat
  mineCount : Nat
  board : Nat → Nat → Int
  revealed : Nat → Nat → Bool
  flagged : Nat → Nat → Bool
  minePositions : Finset (Nat × Nat)

/-- The 8 neighbor offsets, in the iteration order of the python loops
(`for dx in [-1,0,1]: for dy in [-1,0,1]:` skipping `(0,0)`). -/
def neighborDeltas : List (Int × Int) :=
  [(-1,-1),(-1,0),(-1,1),(0,-1),(0,1),(1,-1),(1,0),(1,1)]

/-- Embedding of `Board._count_adjacent_mines`. -/
def countAdjacentMines (b : Board) (x y : Nat) : Nat :=
  neighborDeltas.countP (fun d =>
    decide (0 ≤ (x : Int) + d.1 ∧ (x : Int) + d.1 < (b.height : Int) ∧
      0 ≤ (y : Int) + d.2 ∧ (y : Int) + d.2 < (b.width : Int) ∧
      b.board ((x : Int) + d.1).toNat ((y : Int) + d.2).toNat = -1))

/-- Pointwise update `self.revealed[x][y] = True`. -/
def setRevealed (b : Board) (x y : Nat) : Board :=
  { b with revealed := fun a c => if a = x ∧ c = y then true else b.revealed a c }

/-- The in-bounds cell coordinates as a finset. -/
def boardCells (b : Board) : Finset (Nat × Nat) :=
  Finset.range b.height ×ˢ Finset.range b.width

/-- Number of in-bounds cells that are not yet revealed (used as the fuel
bound for the flood-fill recursion). -/
def unrevealedCount (b : Board) : Nat :=
  ((boardCells b).filter (fun p => b.revealed p.1 p.2 = false)).card

/-- Recompute one cell's number: `self.board[x][y] = self._count_adjacent_mines(x, y)`
guarded by `if self.board[x][y] != -1`. -/
def recomputeCell (b : Board) (x y : Nat) : Board :=
  if b.board x y = -1 then b
  else { b with board := fun a c =>
    if a = x ∧ c = y then (countAdjacentMines b x y : Int) else b.board a c }

/-- Row-major list of all in-bounds cells, as iterated by
`for x in range(self.height): for y in range(self.width):`. -/
def allCellsList (h w : Nat) : List (Nat × Nat) :=
  (List.range h).flatMap (fun x => (List.range w).map (fun y => (x, y)))

/-- Embedding of `Board._update_numbers`: sequentially recompute every
non-mine cell of the whole grid. -/
def updateNumbers (b : Board) : Board :=
  (allCellsList b.height b.width).foldl (fun acc p => recomputeCell acc p.1 p.2) b

/-- Cells of the clipped 3x3 rectangle centered at `(cx, cy)`, as iterated by
`for x in range(max(0, cx-1), min(self.height, cx+2)):` and the inner loop. -/
def rectCells (b : Board) (cx cy : Nat) : List (Nat × Nat) :=
  (List.range' (cx - 1) (min b.height (cx + 2) - (cx - 1))).flatMap
    (fun x => (List.range' (cy - 1) (min b.width (cy + 2) - (cy - 1))).map
      (fun y => (x, y)))

/-- Sequential recomputation of the numbers in one clipped 3x3 rectangle,
one of the two loops at the end of `Board.reposition_mine`. -/
def recomputeRect (b : Board) (cx cy : Nat) : Board :=
  (rectCells b cx cy).foldl (fun acc p => recomputeCell acc p.1 p.2) b

/-- The two grid writes and the `mine_positions` update in the middle of
`Board.reposition_mine` (`set.remove`/`set.add` become `Finset.erase`/`insert`). -/
def swapBoard (b : Board) (p1 p2 : Nat × Nat) : Board :=
  { b with
    board := fun a c =>
      if a = p1.1 ∧ c = p1.2 then 0
      else if a = p2.1 ∧ c = p2.2 then -1
      else b.board a c,
    minePositions := insert p2 (b.minePositions.erase p1) }

/-- Embedding of `Board.reposition_mine`: the guard, the swap (see
`swapBoard`) and the two recomputation loops follow the source line by
line. -/
def repositionMine (b : Board) (p1 p2 : Nat × Nat) : Board :=
  if b.board p1.1 p1.2 ≠ -1 ∨ b.board p2.1 p2.2 = -1 then b
  else recomputeRect (recomputeRect (swapBoard b p1 p2) p1.1 p1.2) p2.1 p2.2

/-- Embedding of `Board.toggle_flag`. -/
def toggleFlag (b : Board) (x y : Nat) : Board :=
  if b.revealed x y = true then b
  else { b with flagged := fun a c =>
    if a = x ∧ c = y then !b.flagged a c else b.flagged a c }

/-- Embedding of `Board.is_won`:
`np.all((self.revealed | (self.board == -1)) == True)`. -/
def isWon (b : Board) : Bool :=
  (allCellsList b.height b.width).all
    (fun p => b.revealed p.1 p.2 || decide (b.board p.1 p.2 = -1))

/-- Embedding of `Board.get_safe_moves`: row-major list of the unrevealed,
unflagged, non-mine cells. -/
def getSafeMoves (b : Board) : List (Nat × Nat) :=
  (List.range b.height).flatMap (fun x =>
    ((List.range b.width).filter (fun y =>
      decide (b.revealed x y = false ∧ b.flagged x y = false ∧ b.board x y ≠ -1))).map
      (fun y => (x, y)))

/-- The guard of the 8-neighbor loop of `Board._reveal_adjacent`: the
neighbor `(x, y) + d` is in bounds, unrevealed and unflagged. -/
def stepOK (b : Board) (x y : Nat) (d : Int × Int) : Prop :=
  0 ≤ (x : Int) + d.1 ∧ (x : Int) + d.1 < (b.height : Int) ∧
  0 ≤ (y : Int) + d.2 ∧ (y : Int) + d.2 < (b.width : Int) ∧
  b.revealed ((x : Int) + d.1).toNat ((y : Int) + d.2).toNat = false ∧
  b.flagged ((x : Int) + d.1).toNat ((y : Int) + d.2).toNat = false

instance (b : Board) (x y : Nat) (d : Int × Int) : Decidable (stepOK b x y d) := by
  unfold stepOK
  exact inferInstance

/-- One pass of the 8-neighbor loop body of `Board._reveal_adjacent` for the
cell `(x, y)`, over the remaining offsets `ds`, where `f` performs the
recursive call on a zero-valued newly revealed neighbor: reveal each in-bounds
unrevealed unflagged neighbor in order, recursing (`f`) when its number is 0. -/
def revealAdjacentList (f : Board → Nat → Nat → Option Board) :
    Board → List (Int × Int) → Nat → Nat → Option Board
  | b, [], _, _ => some b
  | b, d :: ds, x, y =>
    if stepOK b x y d then
      let b1 := setRevealed b ((x : Int) + d.1).toNat ((y : Int) + d.2).toNat
      if b1.board ((x : Int) + d.1).toNat ((y : Int) + d.2).toNat = 0 then
        match f b1 ((x : Int) + d.1).toNat ((y : Int) + d.2).toNat with
        | none => none
        | some b2 => revealAdjacentList f b2 ds x y
      else revealAdjacentList f b1 ds x y
    else revealAdjacentList f b ds x y

/-- Embedding of `Board._reveal_adjacent`, the recursive flood fill. The
python recursion is total because each nested call happens right after a
previously unrevealed cell was marked revealed, so the recursion depth never
exceeds the number of unrevealed cells; we make this explicit with a fuel
argument bounding the recursion depth (`none` = fuel exhausted) and prove
below that `unrevealedCount + 1` fuel always suffices. -/
def revealAdjacentGo : Nat → Board → Nat → Nat → Option Board
  | 0, _, _, _ => none
  | fuel + 1, b, x, y =>
    revealAdjacentList (fun b2 a c => revealAdjacentGo fuel b2 a c) b neighborDeltas x y

/-- The flood fill from `(x, y)` with its canonical (sufficient) fuel. -/
def revealAdjacentRes (b : Board) (x y : Nat) : Option Board :=
  revealAdjacentGo (unrevealedCount b + 1) b x y

/-- Total version of `Board._reveal_adjacent` (the `getD` default is never
used: `revealAdjacentRes` is proved to be `some` below). -/
def revealAdjacent (b : Board) (x y : Nat) : Board :=
  (revealAdjacentRes b x y).getD b

/-- The spec's outcome vocabulary for `Board.reveal`. The python method
returns a bool: its early `return True` on a flagged or already revealed cell
is `NOOP`, its `return False` on a mine is `MINE_HIT`, and its final
`return True` is `SAFE`. -/
inductive Outcome where
  | SAFE
  | MINE_HIT
  | NOOP
deriving DecidableEq

/-- Embedding of `Board.reveal`, returning the outcome (see `Outcome`) paired
with the updated board. -/
def reveal (b : Board) (x y : Nat) : Outcome × Board :=
  if b.flagged x y = true ∨ b.revealed x y = true then (Outcome.NOOP, b)
  else
    let b1 := setRevealed b x y
    if b1.board x y = -1 then (Outcome.MINE_HIT, b1)
    else if b1.board x y = 0 then (Outcome.SAFE, revealAdjacent b1 x y)
    else (Outcome.SAFE, b1)

/-- The board built by `Board.initialize_board` from a given successful
outcome `draw` of `np.random.choice` (a set of `mine_count` distinct cells):
all masks cleared, mines placed, then `_update_numbers`. -/
def mkInitialBoard (w h mc : Nat) (draw : Finset (Nat × Nat)) : Board :=
  updateNumbers
    { width := w, height := h, mineCount := mc,
      board := fun x y => if (x, y) ∈ draw then -1 else 0,
      revealed := fun _ _ => false,
      flagged := fun _ _ => false,
      minePositions := draw }

/-- Embedding of `Board.initialize_board` including the failure behaviour of
`np.random.choice(len(positions), mine_count, replace=False)`: the call is
parametrized by the sampled set `draw`, and a draw is a possible outcome
exactly when it consists of `mc` distinct in-bounds cells (such a draw exists
iff `mc ≤ w * h`; `np.random.choice` raises otherwise). -/
def initializeBoard (w h mc : Nat) (draw : Finset (Nat × Nat)) : Option Board :=
  if draw.card = mc ∧ ∀ p ∈ draw, p.1 < h ∧ p.2 < w then
    some (mkInitialBoard w h mc draw)
  else none

/-- Embedding of the `AIController` state: move history, danger zone list and
the difficulty factor (a python float, modelled as `ℚ`). -/
structure AIState where
  moveHistory : List (Nat × Nat)
  dangerZones : List (Nat × Nat)
  difficultyFactor : ℚ

/-- Embedding of `AIController._are_moves_clustered`: every pair `i < j`
of the list is within Manhattan distance 3. -/
def areMovesClustered : List (Nat × Nat) → Bool
  | [] => true
  | m :: ms => ms.all (fun m2 => decide (manhattan m m2 ≤ 3)) && areMovesClustered ms

/-- Embedding of `AIController._get_cluster_center`: integer-floor average. -/
def getClusterCenter (ms : List (Nat × Nat)) : Nat × Nat :=
  ((ms.map Prod.fst).sum / ms.length, (ms.map Prod.snd).sum / ms.length)

/-- Embedding of `AIController._update_danger_zones`. -/
def updateDangerZones (st : AIState) (x y : Nat) : AIState :=
  let zs := st.dangerZones.filter (fun z => decide (manhattan z (x, y) ≤ 5))
  if 3 ≤ st.moveHistory.length then
    let recent := st.moveHistory.drop (st.moveHistory.length - 3)
    if areMovesClustered recent then
      let c := getClusterCenter recent
      if c ∈ zs then { st with dangerZones := zs }
      else { st with dangerZones := zs ++ [c] }
    else { st with dangerZones := zs }
  else { st with dangerZones := zs }

/-- Embedding of `AIController.record_move`: append to the history, then
update the danger zones. -/
def recordMove (st : AIState) (x y : Nat) : AIState :=
  updateDangerZones { st with moveHistory := st.moveHistory ++ [(x, y)] } x y

/-- The 9 offsets iterated by the adjacency loop of
`AIController._calculate_move_risk` (which does not skip `(0,0)`). -/
def deltas9 : List (Int × Int) :=
  [(-1,-1),(-1,0),(-1,1),(0,-1),(0,0),(0,1),(1,-1),(1,0),(1,1)]

/-- Embedding of `AIController._calculate_move_risk`. -/
def calculateMoveRisk (st : AIState) (b : Board) (m : Nat × Nat) : ℚ :=
  (st.dangerZones.map (fun z =>
    if manhattan m z ≤ 3 then ((4 - manhattan m z : Nat) : ℚ) * st.difficultyFactor
    else 0)).sum
  + (deltas9.map (fun d =>
      if 0 ≤ (m.1 : Int) + d.1 ∧ (m.1 : Int) + d.1 < (b.height : Int) ∧
          0 ≤ (m.2 : Int) + d.2 ∧ (m.2 : Int) + d.2 < (b.width : Int) ∧
          b.revealed ((m.1 : Int) + d.1).toNat ((m.2 : Int) + d.2).toNat = true then
        (b.board ((m.1 : Int) + d.1).toNat ((m.2 : Int) + d.2).toNat : ℚ) * (1/2)
      else 0)).sum

/-- Embedding of `AIController.get_hint`: `min(move_scores, key=first)` on the
scored safe moves; python's `min` keeps the first element attaining the
minimal key, which is the `foldl` below. -/
def getHint (st : AIState) (b : Board) : Option (Nat × Nat) :=
  match getSafeMoves b with
  | [] => none
  | m :: ms => some (ms.foldl
      (fun best cur =>
        if calculateMoveRisk st b cur < calculateMoveRisk st b best then cur else best)
      m)

/-- Risk score as worded by the spec (for comparison with the embedded
`calculateMoveRisk`): for each danger zone within Manhattan distance 3, add
`(4 - distance) * difficultyScalar`; for each in-bounds revealed 8-neighbor,
add 0.5 times that neighbor's stored value. -/
def riskScoreSpec (st : AIState) (b : Board) (m : Nat × Nat) : ℚ :=
  (st.dangerZones.map (fun z =>
    if manhattan m z ≤ 3 then ((4 - manhattan m z : Nat) : ℚ) * st.difficultyFactor
    else 0)).sum
  + (neighborDeltas.map (fun d =>
      if 0 ≤ (m.1 : Int) + d.1 ∧ (m.1 : Int) + d.1 < (b.height : Int) ∧
          0 ≤ (m.2 : Int) + d.2 ∧ (m.2 : Int) + d.2 < (b.width : Int) ∧
          b.revealed ((m.1 : Int) + d.1).toNat ((m.2 : Int) + d.2).toNat = true then
        (1/2) * (b.board ((m.1 : Int) + d.1).toNat ((m.2 : Int) + d.2).toNat : ℚ)
      else 0)).sum

/-- Row-major list of unrevealed cells, the comprehension in
`AIController._transform_random_tile`. -/
def unrevealedCells (b : Board) : List (Nat × Nat) :=
  (List.range b.height).flatMap (fun x =>
    ((List.range b.width).filter (fun y => !b.revealed x y)).map (fun y => (x, y)))

/-- Row-major list of unrevealed non-mine cells, the candidate comprehension
in `AIController._find_safe_transformation_spot`. -/
def safeSpotCandidates (b : Board) : List (Nat × Nat) :=
  (List.range b.height).flatMap (fun x =>
    ((List.range b.width).filter (fun y =>
      !b.revealed x y && decide ((x, y) ∉ b.minePositions))).map (fun y => (x, y)))

/-- Embedding of `AIController._find_safe_transformation_spot`; `r` models the
`np.random.randint(len(candidates))` draw (reduced mod the length), and the
source's fallback `(0, 0)` is returned when there is no candidate. -/
def findSafeTransformationSpot (b : Board) (r : Nat) : Nat × Nat :=
  let candidates := safeSpotCandidates b
  if candidates.length = 0 then (0, 0)
  else candidates.getD (r % candidates.length) (0, 0)

/-- Embedding of `AIController._transform_random_tile`; `rPick` models the
random index into the unrevealed cells, `rSpot` the random index drawn by
`_find_safe_transformation_spot`, `coin` the outcome of
`np.random.random() < 0.3 * difficulty_factor`, and `fm` the arbitrary
element produced by `next(iter(self.board.mine_positions))`. -/
def transformRandomTile (b : Board) (rPick rSpot : Nat) (coin : Bool)
    (fm : Nat × Nat) : Board :=
  let unrevealed := unrevealedCells b
  if unrevealed.length = 0 then b
  else
    let p := unrevealed.getD (rPick % unrevealed.length) (0, 0)
    if p ∈ b.minePositions then
      repositionMine b p (findSafeTransformationSpot b rSpot)
    else if coin then repositionMine b fm p
    else b

/-- The player-facing mutating operations of the `Board` class, for stating
the invariant over arbitrary operation sequences. -/
inductive Op where
  | revealOp (x y : Nat)
  | toggleOp (x y : Nat)
  | repositionOp (p1 p2 : Nat × Nat)

/-- Apply one operation. -/
def applyOp (b : Board) : Op → Board
  | .revealOp x y => (reveal b x y).2
  | .toggleOp x y => toggleFlag b x y
  | .repositionOp p1 p2 => repositionMine b p1 p2

/-- Apply a sequence of operations, first one first. -/
def applyOps (b : Board) (ops : List Op) : Board := ops.foldl applyOp b

/-- An operation's coordinates are in bounds. -/
def opInBounds (h w : Nat) : Op → Prop
  | .revealOp x y => x < h ∧ y < w
  | .toggleOp x y => x < h ∧ y < w
  | .repositionOp p1 p2 => p1.1 < h ∧ p1.2 < w ∧ p2.1 < h ∧ p2.2 < w

instance (h w : Nat) (op : Op) : Decidable (opInBounds h w op) := by
  cases op with
  | revealOp x y => exact inferInstanceAs (Decidable (x < h ∧ y < w))
  | toggleOp x y => exact inferInstanceAs (Decidable (x < h ∧ y < w))
  | repositionOp p1 p2 =>
    exact inferInstanceAs (Decidable (p1.1 < h ∧ p1.2 < w ∧ p2.1 < h ∧ p2.2 < w))

/-- The number invariant: every in-bounds non-mine cell stores the exact
count of mines in its clipped 8-neighborhood. -/
def CountsInv (b : Board) : Prop :=
  ∀ x, x < b.height → ∀ y, y < b.width → b.board x y ≠ -1 →
    b.board x y = (countAdjacentMines b x y : Int)

instance (b : Board) : Decidable (CountsInv b) := by
  unfold CountsInv
  exact inferInstance

/-- Concrete 1x1 mine-free board (for instantiating the contracts). -/
def board1x1 : Board :=
  { width := 1, height := 1, mineCount := 0,
    board := fun _ _ => 0, revealed := fun _ _ => false,
    flagged := fun _ _ => false, minePositions := ∅ }

/-- Concrete 2x2 mine-free board with all numbers zero. -/
def board2x2zero : Board :=
  { width := 2, height := 2, mineCount := 0,
    board := fun _ _ => 0, revealed := fun _ _ => false,
    flagged := fun _ _ => false, minePositions := ∅ }

/-- Concrete 2x2 board with one mine at (0,0) and correct numbers. -/
def board2x2mine : Board :=
  { width := 2, height := 2, mineCount := 1,
    board := fun x y => if x = 0 ∧ y = 0 then -1 else 1,
    revealed := fun _ _ => false, flagged := fun _ _ => false,
    minePositions := {(0, 0)} }

/-- Concrete 3x3 board with one mine at (0,0) and correct numbers (the
spec's running example). -/
def board3x3mine : Board :=
  { width := 3, height := 3, mineCount := 1,
    board := fun x y => if x = 0 ∧ y = 0 then -1 else if x ≤ 1 ∧ y ≤ 1 then 1 else 0,
    revealed := fun _ _ => false, flagged := fun _ _ => false,
    minePositions := {(0, 0)} }

/-- Concrete 1x2 board whose only unrevealed cell is the mine at (0,1),
while (0,0) is revealed with number 1. -/
def boardRow : Board :=
  { width := 2, height := 1, mineCount := 1,
    board := fun x y => if x = 0 ∧ y = 1 then -1 else if x = 0 ∧ y = 0 then 1 else 0,
    revealed := fun x y => decide (x = 0 ∧ y = 0), flagged := fun _ _ => false,
    minePositions := {(0, 1)} }

/-- The mirror invariant: `minePositions` is exactly the set of in-bounds
cells with value `-1`, and contains only in-bounds cells. -/
def MirrorInv (b : Board) : Prop :=
  (∀ x, x < b.height → ∀ y, y < b.width → ((x, y) ∈ b.minePositions ↔ b.board x y = -1)) ∧
  ∀ p ∈ b.minePositions, p.1 < b.height ∧ p.2 < b.width

/-- The full grid consistency invariant of the spec, including
`|mineSet| = mineCount`. -/
def GridInv (b : Board) : Prop :=
  CountsInv b ∧ MirrorInv b ∧ b.minePositions.card = b.mineCount

/-- What a reveal-type mutation may do: everything except the `revealed` mask
is untouched, and `revealed` only grows. -/
def RevStep (b b2 : Board) : Prop :=
  b2.width = b.width ∧ b2.height = b.height ∧ b2.mineCount = b.mineCount ∧
  b2.board = b.board ∧ b2.flagged = b.flagged ∧
  b2.minePositions = b.minePositions ∧
  ∀ x y, b.revealed x y = true → b2.revealed x y = true

/-- The neighbor `(x, y) + d` is in bounds. -/
def nbrIn (b : Board) (x y : Nat) (d : Int × Int) : Prop :=
  0 ≤ (x : Int) + d.1 ∧ (x : Int) + d.1 < (b.height : Int) ∧
  0 ≤ (y : Int) + d.2 ∧ (y : Int) + d.2 < (b.width : Int)

/-- All in-bounds values are zero (a mine-free grid satisfying the number
invariant). -/
def AllZero (b : Board) : Prop :=
  ∀ a c, a < b.height → c < b.width → b.board a c = 0

/-- No cell is flagged. -/
def NoFlags (b : Board) : Prop := ∀ a c, b.flagged a c = false

/-- All in-bounds neighbors of `(a, c)` are revealed in `bf`. -/
def NbrsRevealed (bf : Board) (a c : Nat) : Prop :=
  ∀ d ∈ neighborDeltas, nbrIn bf a c d →
    bf.revealed ((a : Int) + d.1).toNat ((c : Int) + d.2).toNat = true

/-- Every cell revealed by the run (rather than before it) has all its
in-bounds neighbors revealed in the final board. -/
def Closure (b0 bf : Board) : Prop :=
  ∀ a c, a < bf.height → c < bf.width → bf.revealed a c = true →
    b0.revealed a c = true ∨ NbrsRevealed bf a c

/-- Chebyshev distance between cells: the number of king moves needed. -/
def cheb (p q : Nat × Nat) : Nat := max (natDist p.1 q.1) (natDist p.2 q.2)

/-- One king-move step from `a` toward `t`. -/
def stepToward (a t : Nat) : Nat := if a < t then a + 1 else if t < a then a - 1 else a

/-- What number recomputation may do: everything except non-mine number
values is untouched, and which cells are mines never changes. -/
def NumFix (b b2 : Board) : Prop :=
  b2.height = b.height ∧ b2.width = b.width ∧ b2.mineCount = b.mineCount ∧
  b2.revealed = b.revealed ∧ b2.flagged = b.flagged ∧
  b2.minePositions = b.minePositions ∧
  ∀ a c, (b2.board a c = -1 ↔ b.board a c = -1)

@[simp] theorem setRevealed_board (b : Board) (x y : Nat) :
    (setRevealed b x y).board = b.board := rfl

@[simp] theorem setRevealed_flagged (b : Board) (x y : Nat) :
    (setRevealed b x y).flagged = b.flagged := rfl

@[simp] theorem setRevealed_height (b : Board) (x y : Nat) :
    (setRevealed b x y).height = b.height := rfl

@[simp] theorem setRevealed_width (b : Board) (x y : Nat) :
    (setRevealed b x y).width = b.width := rfl

@[simp] theorem setRevealed_mineCount (b : Board) (x y : Nat) :
    (setRevealed b x y).mineCount = b.mineCount := rfl

@[simp] theorem setRevealed_minePositions (b : Board) (x y : Nat) :
    (setRevealed b x y).minePositions = b.minePositions := rfl

theorem setRevealed_revealed (b : Board) (x y a c : Nat) :
    (setRevealed b x y).revealed a c =
      if a = x ∧ c = y then true else b.revealed a c := rfl

theorem revStep_refl (b : Board) : RevStep b b :=
  ⟨Eq.refl _, Eq.refl _, Eq.refl _, Eq.refl _, Eq.refl _, Eq.refl _, fun _ _ h => h⟩

theorem revStep_trans {b b2 b3 : Board} (h1 : RevStep b b2) (h2 : RevStep b2 b3) :
    RevStep b b3 := by
  obtain ⟨w1, h1', m1, bd1, f1, mp1, r1⟩ := h1
  obtain ⟨w2, h2', m2, bd2, f2, mp2, r2⟩ := h2
  exact ⟨w2.trans w1, h2'.trans h1', m2.trans m1, bd2.trans bd1, f2.trans f1,
    mp2.trans mp1, fun x y h => r2 x y (r1 x y h)⟩

theorem revStep_setRevealed (b : Board) (x y : Nat) : RevStep b (setRevealed b x y) := by
  refine ⟨Eq.refl _, Eq.refl _, Eq.refl _, Eq.refl _, Eq.refl _, Eq.refl _, fun a c h => ?_⟩
  simp only [setRevealed_revealed]
  split <;> simp [h]

@[simp] theorem boardCells_congr {b b2 : Board} (hh : b2.height = b.height)
    (hw : b2.width = b.width) : boardCells b2 = boardCells b := by
  simp [boardCells, hh, hw]

theorem unrevealedCount_le_of_revStep {b b2 : Board} (h : RevStep b b2) :
    unrevealedCount b2 ≤ unrevealedCount b := by
  obtain ⟨hw, hh, _, _, _, _, hr⟩ := h
  unfold unrevealedCount
  rw [boardCells_congr hh hw]
  refine Finset.card_le_card (fun p hp => ?_)
  rw [Finset.mem_filter] at hp ⊢
  refine ⟨hp.1, ?_⟩
  rcases hb : b.revealed p.1 p.2 with _ | _
  · rfl
  · have := hr p.1 p.2 hb
    rw [this] at hp
    exact absurd hp.2 (by simp)

@[simp] theorem boardCells_setRevealed (b : Board) (x y : Nat) :
    boardCells (setRevealed b x y) = boardCells b := rfl

theorem unrevealedCount_setRevealed {b : Board} {x y : Nat}
    (hx : x < b.height) (hy : y < b.width) (hr : b.revealed x y = false) :
    unrevealedCount (setRevealed b x y) + 1 = unrevealedCount b := by
  unfold unrevealedCount
  rw [boardCells_setRevealed]
  have hmem : (x, y) ∈ (boardCells b).filter (fun p => b.revealed p.1 p.2 = false) := by
    simp [boardCells, Finset.mem_filter, Finset.mem_product, hx, hy, hr]
  have hfe : (boardCells b).filter (fun p => (setRevealed b x y).revealed p.1 p.2 = false)
      = ((boardCells b).filter (fun p => b.revealed p.1 p.2 = false)).erase (x, y) := by
    ext q
    simp only [Finset.mem_filter, Finset.mem_erase, setRevealed_revealed]
    constructor
    · rintro ⟨hq, hrev⟩
      by_cases hqe : q.1 = x ∧ q.2 = y
      · simp [hqe] at hrev
      · refine ⟨fun hq2 => hqe (by simp [hq2]), hq, ?_⟩
        rw [if_neg hqe] at hrev
        exact hrev
    · rintro ⟨hne, hq, hrev⟩
      refine ⟨hq, ?_⟩
      rw [if_neg ?_]
      · exact hrev
      · rintro ⟨h1, h2⟩
        exact hne (by cases q; simp_all)
  rw [hfe, Finset.card_erase_of_mem hmem]
  have hpos : 0 < ((boardCells b).filter (fun p => b.revealed p.1 p.2 = false)).card :=
    Finset.card_pos.mpr ⟨_, hmem⟩
  omega

theorem unrevealedCount_setRevealed_lt {b : Board} {x y : Nat}
    (hx : x < b.height) (hy : y < b.width) (hr : b.revealed x y = false) :
    unrevealedCount (setRevealed b x y) < unrevealedCount b := by
  have := unrevealedCount_setRevealed hx hy hr
  omega

theorem stepOK_bounds {b : Board} {x y : Nat} {d : Int × Int} (h : stepOK b x y d) :
    ((x : Int) + d.1).toNat < b.height ∧ ((y : Int) + d.2).toNat < b.width := by
  obtain ⟨h1, h2, h3, h4, _, _⟩ := h
  omega

/-- Every run of the neighbor loop is a pure reveal step, provided the
recursive callee is. -/
theorem revealAdjacentList_revStep {f : Board → Nat → Nat → Option Board}
    (Hf : ∀ b x y b2, f b x y = some b2 → RevStep b b2) :
    ∀ ds b x y b2, revealAdjacentList f b ds x y = some b2 → RevStep b b2 := by
  intro ds
  induction ds with
  | nil =>
    intro b x y b2 h
    simp only [revealAdjacentList, Option.some.injEq] at h
    exact h ▸ revStep_refl b
  | cons d ds ih =>
    intro b x y b2 h
    simp only [revealAdjacentList] at h
    by_cases hok : stepOK b x y d
    · rw [if_pos hok] at h
      by_cases hz : (setRevealed b ((x : Int) + d.1).toNat ((y : Int) + d.2).toNat).board
          ((x : Int) + d.1).toNat ((y : Int) + d.2).toNat = 0
      · rw [if_pos hz] at h
        rcases hmid : f (setRevealed b ((x : Int) + d.1).toNat ((y : Int) + d.2).toNat)
            ((x : Int) + d.1).toNat ((y : Int) + d.2).toNat with _ | bmid
        · rw [hmid] at h
          exact absurd h (by simp)
        · rw [hmid] at h
          exact revStep_trans (revStep_trans (revStep_setRevealed b _ _) (Hf _ _ _ _ hmid)) (ih _ _ _ _ h)
      · rw [if_neg hz] at h
        exact revStep_trans (revStep_setRevealed b _ _) (ih _ _ _ _ h)
    · rw [if_neg hok] at h
      exact ih _ _ _ _ h

/-- Every flood fill is a pure reveal step. -/
theorem revealAdjacentGo_revStep :
    ∀ fuel b x y b2, revealAdjacentGo fuel b x y = some b2 → RevStep b b2 := by
  intro fuel
  induction fuel with
  | zero =>
    intro b x y b2 h
    simp [revealAdjacentGo] at h
  | succ fuel ih =>
    intro b x y b2 h
    simp only [revealAdjacentGo] at h
    exact revealAdjacentList_revStep (fun b x y b2 hh => ih b x y b2 hh) _ _ _ _ _ h

/-- Fuel sufficiency for one pass of the neighbor loop: if the callee
succeeds whenever strictly fewer than `m` cells are unrevealed, the loop
succeeds whenever at most `m` cells are unrevealed. -/
theorem revealAdjacentList_total {f : Board → Nat → Nat → Option Board} {m : Nat}
    (Hf : ∀ b x y, unrevealedCount b < m →
      ∃ b2, f b x y = some b2 ∧ RevStep b b2) :
    ∀ ds b x y, unrevealedCount b ≤ m →
      ∃ b2, revealAdjacentList f b ds x y = some b2 ∧ RevStep b b2 := by
  intro ds
  induction ds with
  | nil =>
    intro b x y _
    exact ⟨b, by simp [revealAdjacentList], revStep_refl b⟩
  | cons d ds ih =>
    intro b x y hb
    simp only [revealAdjacentList]
    by_cases hok : stepOK b x y d
    · rw [if_pos hok]
      have hxN := (stepOK_bounds hok).1
      have hyN := (stepOK_bounds hok).2
      have hrev := hok.2.2.2.2.1
      have hcnt := unrevealedCount_setRevealed hxN hyN hrev
      by_cases hz : (setRevealed b ((x : Int) + d.1).toNat ((y : Int) + d.2).toNat).board
          ((x : Int) + d.1).toNat ((y : Int) + d.2).toNat = 0
      · rw [if_pos hz]
        obtain ⟨bmid, hmid, smid⟩ :=
          Hf (setRevealed b ((x : Int) + d.1).toNat ((y : Int) + d.2).toNat)
            ((x : Int) + d.1).toNat ((y : Int) + d.2).toNat (by omega)
        rw [hmid]
        obtain ⟨b2, h2, s2⟩ := ih bmid x y
          (le_trans (unrevealedCount_le_of_revStep smid) (by omega))
        exact ⟨b2, h2, revStep_trans (revStep_trans (revStep_setRevealed b _ _) smid) s2⟩
      · rw [if_neg hz]
        obtain ⟨b2, h2, s2⟩ :=
          ih (setRevealed b ((x : Int) + d.1).toNat ((y : Int) + d.2).toNat) x y (by omega)
        exact ⟨b2, h2, revStep_trans (revStep_setRevealed b _ _) s2⟩
    · rw [if_neg hok]
      exact ih b x y hb

/-- Fuel sufficiency for the flood fill: fuel exceeding the number of
unrevealed cells never runs out. -/
theorem revealAdjacentGo_total :
    ∀ fuel b x y, unrevealedCount b < fuel →
      ∃ b2, revealAdjacentGo fuel b x y = some b2 ∧ RevStep b b2 := by
  intro fuel
  induction fuel with
  | zero =>
    intro b x y h
    exact absurd h (by omega)
  | succ fuel ih =>
    intro b x y h
    simp only [revealAdjacentGo]
    exact revealAdjacentList_total (fun b x y hh => ih b x y hh) _ b x y (by omega)

/-- The canonical flood-fill call never exhausts its fuel. -/
theorem revealAdjacentRes_isSome (b : Board) (x y : Nat) :
    ∃ b2, revealAdjacentRes b x y = some b2 ∧ RevStep b b2 :=
  revealAdjacentGo_total _ b x y (by omega)

theorem revealAdjacent_revStep (b : Board) (x y : Nat) :
    RevStep b (revealAdjacent b x y) := by
  obtain ⟨b2, h2, s2⟩ := revealAdjacentRes_isSome b x y
  rw [revealAdjacent, h2]
  exact s2

theorem nbrIn_congr {b b2 : Board} (hh : b2.height = b.height) (hw : b2.width = b.width)
    (x y : Nat) (d : Int × Int) : nbrIn b2 x y d ↔ nbrIn b x y d := by
  unfold nbrIn
  rw [hh, hw]

theorem stepOK_iff {b : Board} {x y : Nat} {d : Int × Int} :
    stepOK b x y d ↔ nbrIn b x y d ∧
      b.revealed ((x : Int) + d.1).toNat ((y : Int) + d.2).toNat = false ∧
      b.flagged ((x : Int) + d.1).toNat ((y : Int) + d.2).toNat = false := by
  unfold stepOK nbrIn
  tauto

/-- After a successful pass of the neighbor loop, every in-bounds unflagged
neighbor offset of the processed list ends up revealed. -/
theorem revealAdjacentList_neighbors {f : Board → Nat → Nat → Option Board}
    (Hf : ∀ b x y b2, f b x y = some b2 → RevStep b b2) :
    ∀ ds b x y b2, revealAdjacentList f b ds x y = some b2 →
      ∀ d ∈ ds, nbrIn b x y d →
        b.flagged ((x : Int) + d.1).toNat ((y : Int) + d.2).toNat = false →
        b2.revealed ((x : Int) + d.1).toNat ((y : Int) + d.2).toNat = true := by
  intro ds
  induction ds with
  | nil =>
    intro b x y b2 _ d hd
    exact absurd hd (List.not_mem_nil d)
  | cons d0 ds ih =>
    intro b x y b2 h d hd hin hfl
    simp only [revealAdjacentList] at h
    by_cases hok : stepOK b x y d0
    · rw [if_pos hok] at h
      by_cases hz : (setRevealed b ((x : Int) + d0.1).toNat ((y : Int) + d0.2).toNat).board
          ((x : Int) + d0.1).toNat ((y : Int) + d0.2).toNat = 0
      · rw [if_pos hz] at h
        rcases hmid : f (setRevealed b ((x : Int) + d0.1).toNat ((y : Int) + d0.2).toNat)
            ((x : Int) + d0.1).toNat ((y : Int) + d0.2).toNat with _ | bmid
        · rw [hmid] at h
          exact absurd h (by simp)
        · rw [hmid] at h
          have s1 : RevStep b (setRevealed b ((x : Int) + d0.1).toNat ((y : Int) + d0.2).toNat) :=
            revStep_setRevealed b _ _
          have s2 : RevStep b bmid := revStep_trans s1 (Hf _ _ _ _ hmid)
          rcases List.mem_cons.mp hd with rfl | hdtail
          · have hrev1 : (setRevealed b ((x : Int) + d.1).toNat ((y : Int) + d.2).toNat).revealed
                ((x : Int) + d.1).toNat ((y : Int) + d.2).toNat = true := by
              simp [setRevealed_revealed]
            have s3 : RevStep (setRevealed b ((x : Int) + d.1).toNat ((y : Int) + d.2).toNat) b2 :=
              revStep_trans (Hf _ _ _ _ hmid) (revealAdjacentList_revStep Hf ds bmid x y b2 h)
            exact s3.2.2.2.2.2.2 _ _ hrev1
          · refine ih bmid x y b2 h d hdtail ?_ ?_
            · exact (nbrIn_congr s2.2.1 s2.1 x y d).mpr hin
            · rw [s2.2.2.2.2.1]
              exact hfl
      · rw [if_neg hz] at h
        have s1 : RevStep b (setRevealed b ((x : Int) + d0.1).toNat ((y : Int) + d0.2).toNat) :=
          revStep_setRevealed b _ _
        rcases List.mem_cons.mp hd with rfl | hdtail
        · have hrev1 : (setRevealed b ((x : Int) + d.1).toNat ((y : Int) + d.2).toNat).revealed
              ((x : Int) + d.1).toNat ((y : Int) + d.2).toNat = true := by
            simp [setRevealed_revealed]
          have s3 := revealAdjacentList_revStep Hf ds _ x y b2 h
          exact s3.2.2.2.2.2.2 _ _ hrev1
        · refine ih _ x y b2 h d hdtail ?_ ?_
          · exact (nbrIn_congr s1.2.1 s1.1 x y d).mpr hin
          · rw [s1.2.2.2.2.1]
            exact hfl
    · rw [if_neg hok] at h
      rcases List.mem_cons.mp hd with rfl | hdtail
      · have hrev : b.revealed ((x : Int) + d.1).toNat ((y : Int) + d.2).toNat = true := by
          rcases hb : b.revealed ((x : Int) + d.1).toNat ((y : Int) + d.2).toNat with _ | _
          · exact absurd (stepOK_iff.mpr ⟨hin, hb, hfl⟩) hok
          · rfl
        exact (revealAdjacentList_revStep Hf ds b x y b2 h).2.2.2.2.2.2 _ _ hrev
      · exact ih b x y b2 h d hdtail hin hfl

/-- After a successful flood fill centered at an in-bounds `(x, y)`, all its
in-bounds unflagged neighbors are revealed. -/
theorem revealAdjacentGo_neighbors {fuel : Nat} {b : Board} {x y : Nat} {b2 : Board}
    (h : revealAdjacentGo fuel b x y = some b2) :
    ∀ d ∈ neighborDeltas, nbrIn b x y d →
      b.flagged ((x : Int) + d.1).toNat ((y : Int) + d.2).toNat = false →
      b2.revealed ((x : Int) + d.1).toNat ((y : Int) + d.2).toNat = true := by
  cases fuel with
  | zero => simp [revealAdjacentGo] at h
  | succ fuel =>
    simp only [revealAdjacentGo] at h
    exact revealAdjacentList_neighbors
      (fun b x y b2 hh => revealAdjacentGo_revStep fuel b x y b2 hh) _ _ _ _ _ h

theorem NbrsRevealed_mono {bf bf2 : Board} (s : RevStep bf bf2) {a c : Nat}
    (hn : NbrsRevealed bf a c) : NbrsRevealed bf2 a c := by
  intro d hd hin
  exact s.2.2.2.2.2.2 _ _ (hn d hd ((nbrIn_congr s.2.1 s.1 a c d).mp hin))

theorem AllZero_of_revStep {b b2 : Board} (s : RevStep b b2) (h : AllZero b) :
    AllZero b2 := by
  intro a c ha hc
  rw [s.2.2.2.1]
  exact h a c (s.2.1 ▸ ha) (s.1 ▸ hc)

theorem NoFlags_of_revStep {b b2 : Board} (s : RevStep b b2) (h : NoFlags b) :
    NoFlags b2 := by
  intro a c
  rw [s.2.2.2.2.1]
  exact h a c

/-- Closure for one pass of the neighbor loop, given that the recursive
callee is a reveal step, reveals all neighbors of its center, and itself
satisfies closure. -/
theorem revealAdjacentList_closure {f : Board → Nat → Nat → Option Board}
    (HfStep : ∀ b x y b2, f b x y = some b2 → RevStep b b2)
    (HfNbrs : ∀ b x y b2, f b x y = some b2 → NoFlags b →
      ∀ d ∈ neighborDeltas, nbrIn b x y d →
        b2.revealed ((x : Int) + d.1).toNat ((y : Int) + d.2).toNat = true)
    (HfClos : ∀ b x y b2, AllZero b → NoFlags b → f b x y = some b2 → Closure b b2) :
    ∀ ds b x y b2, AllZero b → NoFlags b →
      revealAdjacentList f b ds x y = some b2 → Closure b b2 := by
  intro ds
  induction ds with
  | nil =>
    intro b x y b2 _ _ h
    simp only [revealAdjacentList, Option.some.injEq] at h
    subst h
    exact fun a c _ _ hr => Or.inl hr
  | cons d0 ds ih =>
    intro b x y b2 hz0 hf0 h
    simp only [revealAdjacentList] at h
    by_cases hok : stepOK b x y d0
    · rw [if_pos hok] at h
      have hxN := (stepOK_bounds hok).1
      have hyN := (stepOK_bounds hok).2
      have hzq : (setRevealed b ((x : Int) + d0.1).toNat ((y : Int) + d0.2).toNat).board
          ((x : Int) + d0.1).toNat ((y : Int) + d0.2).toNat = 0 := by
        rw [setRevealed_board]
        exact hz0 _ _ hxN hyN
      rw [if_pos hzq] at h
      rcases hmid : f (setRevealed b ((x : Int) + d0.1).toNat ((y : Int) + d0.2).toNat)
          ((x : Int) + d0.1).toNat ((y : Int) + d0.2).toNat with _ | bmid
      · rw [hmid] at h
        exact absurd h (by simp)
      · rw [hmid] at h
        have s1 : RevStep b (setRevealed b ((x : Int) + d0.1).toNat ((y : Int) + d0.2).toNat) :=
          revStep_setRevealed b _ _
        have s2 : RevStep b bmid := revStep_trans s1 (HfStep _ _ _ _ hmid)
        have s3 : RevStep bmid b2 := revealAdjacentList_revStep HfStep ds bmid x y b2 h
        have hzmid : AllZero bmid := AllZero_of_revStep s2 hz0
        have hfmid : NoFlags bmid := NoFlags_of_revStep s2 hf0
        have hclosTail : Closure bmid b2 := ih bmid x y b2 hzmid hfmid h
        intro a c ha hc hrev
        rcases hclosTail a c ha hc hrev with hmrev | hnb
        · -- already revealed in bmid: consult the inner call
          have hclosMid : Closure (setRevealed b ((x : Int) + d0.1).toNat
              ((y : Int) + d0.2).toNat) bmid :=
            HfClos _ _ _ _ (AllZero_of_revStep s1 hz0) (NoFlags_of_revStep s1 hf0) hmid
          have ha2 : a < bmid.height := s3.2.1 ▸ ha
          have hc2 : c < bmid.width := s3.1 ▸ hc
          rcases hclosMid a c ha2 hc2 hmrev with h1rev | hnb2
          · -- revealed already after the setRevealed of the head neighbor
            rw [setRevealed_revealed] at h1rev
            by_cases hqe : a = ((x : Int) + d0.1).toNat ∧ c = ((y : Int) + d0.2).toNat
            · -- the head neighbor itself: its neighbors were revealed by the inner call
              refine Or.inr ?_
              have hn : NbrsRevealed bmid a c := by
                intro d hd hin
                rw [hqe.1, hqe.2]
                refine HfNbrs _ _ _ _ hmid (NoFlags_of_revStep s1 hf0) d hd ?_
                have heq1 : (setRevealed b ((x : Int) + d0.1).toNat
                    ((y : Int) + d0.2).toNat).height = bmid.height := (HfStep _ _ _ _ hmid).2.1.symm
                have heq2 : (setRevealed b ((x : Int) + d0.1).toNat
                    ((y : Int) + d0.2).toNat).width = bmid.width := (HfStep _ _ _ _ hmid).1.symm
                rw [hqe.1, hqe.2] at hin
                exact (nbrIn_congr heq1 heq2 _ _ d).mpr hin
              exact NbrsRevealed_mono s3 hn
            · rw [if_neg hqe] at h1rev
              exact Or.inl h1rev
          · exact Or.inr (NbrsRevealed_mono s3 hnb2)
        · exact Or.inr hnb
    · rw [if_neg hok] at h
      exact ih b x y b2 hz0 hf0 h

/-- Closure for the flood fill on an all-zero unflagged grid. -/
theorem revealAdjacentGo_closure :
    ∀ fuel b x y b2, AllZero b → NoFlags b →
      revealAdjacentGo fuel b x y = some b2 → Closure b b2 := by
  intro fuel
  induction fuel with
  | zero =>
    intro b x y b2 _ _ h
    simp [revealAdjacentGo] at h
  | succ fuel ih =>
    intro b x y b2 hz hf h
    simp only [revealAdjacentGo] at h
    refine revealAdjacentList_closure
      (fun b x y b2 hh => revealAdjacentGo_revStep fuel b x y b2 hh)
      (fun b x y b2 hh hnofl d hd hin =>
        revealAdjacentGo_neighbors hh d hd hin (hnofl _ _))
      (fun b x y b2 az nf hh => ih b x y b2 az nf hh)
      _ b x y b2 hz hf h

theorem countAdjacentMines_congr {b b2 : Board} (hh : b2.height = b.height)
    (hw : b2.width = b.width) (hb : b2.board = b.board) (x y : Nat) :
    countAdjacentMines b2 x y = countAdjacentMines b x y := by
  unfold countAdjacentMines
  simp only [hh, hw, hb]

theorem CountsInv_congr {b b2 : Board} (hh : b2.height = b.height)
    (hw : b2.width = b.width) (hb : b2.board = b.board) (h : CountsInv b) :
    CountsInv b2 := by
  intro x hx y hy hm
  rw [hb] at hm ⊢
  rw [countAdjacentMines_congr hh hw hb]
  exact h x (hh ▸ hx) y (hw ▸ hy) hm

/-- A zero-valued in-bounds cell of a board satisfying the number invariant
has no in-bounds mine neighbor. -/
theorem no_adjacent_mine_of_zero {b : Board} {x y : Nat} (hc : CountsInv b)
    (hx : x < b.height) (hy : y < b.width) (h0 : b.board x y = 0) :
    ∀ d ∈ neighborDeltas, nbrIn b x y d →
      b.board ((x : Int) + d.1).toNat ((y : Int) + d.2).toNat ≠ -1 := by
  have hval := hc x hx y hy (by rw [h0]; decide)
  rw [h0] at hval
  have hcount : countAdjacentMines b x y = 0 := by exact_mod_cast hval.symm
  intro d hd hin hmine
  have hnot := List.countP_eq_zero.mp hcount d hd
  apply hnot
  simp only [decide_eq_true_eq]
  exact ⟨hin.1, hin.2.1, hin.2.2.1, hin.2.2.2, hmine⟩

/-- The neighbor loop started from a zero-valued center of an invariant board
never reveals a mine cell, given the recursive callee does not either. -/
theorem revealAdjacentList_no_mine {f : Board → Nat → Nat → Option Board}
    (HfStep : ∀ b x y b2, f b x y = some b2 → RevStep b b2)
    (HfNoMine : ∀ b x y b2, CountsInv b → x < b.height → y < b.width →
      b.board x y = 0 → f b x y = some b2 →
      ∀ a c, b.board a c = -1 → b2.revealed a c = b.revealed a c) :
    ∀ ds b x y b2, (∀ d ∈ ds, d ∈ neighborDeltas) →
      CountsInv b → x < b.height → y < b.width → b.board x y = 0 →
      revealAdjacentList f b ds x y = some b2 →
      ∀ a c, b.board a c = -1 → b2.revealed a c = b.revealed a c := by
  intro ds
  induction ds with
  | nil =>
    intro b x y b2 _ _ _ _ _ h a c _
    simp only [revealAdjacentList, Option.some.injEq] at h
    rw [← h]
  | cons d0 ds ih =>
    intro b x y b2 hsub hc hx hy h0 h a c hmine
    have hsubTail : ∀ d ∈ ds, d ∈ neighborDeltas := fun d hd => hsub d (List.mem_cons_of_mem d0 hd)
    simp only [revealAdjacentList] at h
    by_cases hok : stepOK b x y d0
    · rw [if_pos hok] at h
      have hq0 : b.board ((x : Int) + d0.1).toNat ((y : Int) + d0.2).toNat ≠ -1 :=
        no_adjacent_mine_of_zero hc hx hy h0 d0 (hsub d0 (List.mem_cons_self d0 ds))
          ⟨hok.1, hok.2.1, hok.2.2.1, hok.2.2.2.1⟩
      have hne : ¬(a = ((x : Int) + d0.1).toNat ∧ c = ((y : Int) + d0.2).toNat) := by
        rintro ⟨rfl, rfl⟩
        exact hq0 hmine
      have e1 : (setRevealed b ((x : Int) + d0.1).toNat ((y : Int) + d0.2).toNat).revealed a c
          = b.revealed a c := by
        rw [setRevealed_revealed, if_neg hne]
      have hcb1 : CountsInv (setRevealed b ((x : Int) + d0.1).toNat ((y : Int) + d0.2).toNat) :=
        CountsInv_congr (setRevealed_height b _ _) (setRevealed_width b _ _)
          (setRevealed_board b _ _) hc
      by_cases hzq : (setRevealed b ((x : Int) + d0.1).toNat ((y : Int) + d0.2).toNat).board
          ((x : Int) + d0.1).toNat ((y : Int) + d0.2).toNat = 0
      · rw [if_pos hzq] at h
        rcases hmid : f (setRevealed b ((x : Int) + d0.1).toNat ((y : Int) + d0.2).toNat)
            ((x : Int) + d0.1).toNat ((y : Int) + d0.2).toNat with _ | bmid
        · rw [hmid] at h
          exact absurd h (by simp)
        · rw [hmid] at h
          have s2 := HfStep _ _ _ _ hmid
          have e2 : bmid.revealed a c =
              (setRevealed b ((x : Int) + d0.1).toNat ((y : Int) + d0.2).toNat).revealed a c :=
            HfNoMine _ _ _ _ hcb1 (stepOK_bounds hok).1 (stepOK_bounds hok).2 hzq hmid a c hmine
          have hhb : bmid.height = b.height := s2.2.1.trans (setRevealed_height b _ _)
          have hwb : bmid.width = b.width := s2.1.trans (setRevealed_width b _ _)
          have hbb : bmid.board = b.board := s2.2.2.2.1.trans (setRevealed_board b _ _)
          have e3 : b2.revealed a c = bmid.revealed a c := by
            refine ih bmid x y b2 hsubTail (CountsInv_congr hhb hwb hbb hc)
              (hhb ▸ hx) (hwb ▸ hy) ?_ h a c ?_
            · rw [hbb]
              exact h0
            · rw [hbb]
              exact hmine
          rw [e3, e2, e1]
      · rw [if_neg hzq] at h
        have e3 : b2.revealed a c =
            (setRevealed b ((x : Int) + d0.1).toNat ((y : Int) + d0.2).toNat).revealed a c := by
          refine ih _ x y b2 hsubTail hcb1 hx hy ?_ h a c hmine
          rw [setRevealed_board]
          exact h0
        rw [e3, e1]
    · rw [if_neg hok] at h
      exact ih b x y b2 hsubTail hc hx hy h0 h a c hmine

/-- The flood fill from a zero-valued center of an invariant board never
reveals a mine cell. -/
theorem revealAdjacentGo_no_mine :
    ∀ fuel b x y b2, CountsInv b → x < b.height → y < b.width → b.board x y = 0 →
      revealAdjacentGo fuel b x y = some b2 →
      ∀ a c, b.board a c = -1 → b2.revealed a c = b.revealed a c := by
  intro fuel
  induction fuel with
  | zero =>
    intro b x y b2 _ _ _ _ h
    simp [revealAdjacentGo] at h
  | succ fuel ih =>
    intro b x y b2 hc hx hy h0 h
    simp only [revealAdjacentGo] at h
    exact revealAdjacentList_no_mine
      (fun b x y b2 hh => revealAdjacentGo_revStep fuel b x y b2 hh)
      (fun b x y b2 hcb hxb hyb h0b hh => ih b x y b2 hcb hxb hyb h0b hh)
      _ b x y b2 (fun d hd => hd) hc hx hy h0 h

/-- The neighbor loop never reveals a flagged cell, given the recursive
callee does not either. -/
theorem revealAdjacentList_flag_keep {f : Board → Nat → Nat → Option Board}
    (HfStep : ∀ b x y b2, f b x y = some b2 → RevStep b b2)
    (HfKeep : ∀ b x y b2, f b x y = some b2 →
      ∀ a c, b.flagged a c = true → b2.revealed a c = b.revealed a c) :
    ∀ ds b x y b2, revealAdjacentList f b ds x y = some b2 →
      ∀ a c, b.flagged a c = true → b2.revealed a c = b.revealed a c := by
  intro ds
  induction ds with
  | nil =>
    intro b x y b2 h a c _
    simp only [revealAdjacentList, Option.some.injEq] at h
    rw [← h]
  | cons d0 ds ih =>
    intro b x y b2 h a c hfl
    simp only [revealAdjacentList] at h
    by_cases hok : stepOK b x y d0
    · rw [if_pos hok] at h
      have hne : ¬(a = ((x : Int) + d0.1).toNat ∧ c = ((y : Int) + d0.2).toNat) := by
        rintro ⟨rfl, rfl⟩
        rw [hok.2.2.2.2.2] at hfl
        exact absurd hfl (by simp)
      have e1 : (setRevealed b ((x : Int) + d0.1).toNat ((y : Int) + d0.2).toNat).revealed a c
          = b.revealed a c := by
        rw [setRevealed_revealed, if_neg hne]
      have hfl1 : (setRevealed b ((x : Int) + d0.1).toNat ((y : Int) + d0.2).toNat).flagged a c
          = true := hfl
      by_cases hzq : (setRevealed b ((x : Int) + d0.1).toNat ((y : Int) + d0.2).toNat).board
          ((x : Int) + d0.1).toNat ((y : Int) + d0.2).toNat = 0
      · rw [if_pos hzq] at h
        rcases hmid : f (setRevealed b ((x : Int) + d0.1).toNat ((y : Int) + d0.2).toNat)
            ((x : Int) + d0.1).toNat ((y : Int) + d0.2).toNat with _ | bmid
        · rw [hmid] at h
          exact absurd h (by simp)
        · rw [hmid] at h
          have s2 := HfStep _ _ _ _ hmid
          have e2 : bmid.revealed a c =
              (setRevealed b ((x : Int) + d0.1).toNat ((y : Int) + d0.2).toNat).revealed a c :=
            HfKeep _ _ _ _ hmid a c hfl1
          have hflmid : bmid.flagged a c = true := by
            rw [s2.2.2.2.2.1]
            exact hfl1
          have e3 : b2.revealed a c = bmid.revealed a c := ih bmid x y b2 h a c hflmid
          rw [e3, e2, e1]
      · rw [if_neg hzq] at h
        have e3 : b2.revealed a c =
            (setRevealed b ((x : Int) + d0.1).toNat ((y : Int) + d0.2).toNat).revealed a c :=
          ih _ x y b2 h a c hfl1
        rw [e3, e1]
    · rw [if_neg hok] at h
      exact ih b x y b2 h a c hfl

/-- The flood fill never reveals a flagged cell. -/
theorem revealAdjacentGo_flag_keep :
    ∀ fuel b x y b2, revealAdjacentGo fuel b x y = some b2 →
      ∀ a c, b.flagged a c = true → b2.revealed a c = b.revealed a c := by
  intro fuel
  induction fuel with
  | zero =>
    intro b x y b2 h
    simp [revealAdjacentGo] at h
  | succ fuel ih =>
    intro b x y b2 h
    simp only [revealAdjacentGo] at h
    exact revealAdjacentList_flag_keep
      (fun b x y b2 hh => revealAdjacentGo_revStep fuel b x y b2 hh)
      (fun b x y b2 hh => ih b x y b2 hh)
      _ b x y b2 h

theorem reveal_of_noop {b : Board} {x y : Nat}
    (h : b.flagged x y = true ∨ b.revealed x y = true) :
    reveal b x y = (Outcome.NOOP, b) := by
  unfold reveal
  rw [if_pos h]

theorem reveal_of_mine {b : Board} {x y : Nat}
    (hfr : ¬(b.flagged x y = true ∨ b.revealed x y = true))
    (hm : b.board x y = -1) :
    reveal b x y = (Outcome.MINE_HIT, setRevealed b x y) := by
  unfold reveal
  rw [if_neg hfr]
  simp only [setRevealed_board]
  rw [if_pos hm]

theorem reveal_of_zero {b : Board} {x y : Nat}
    (hfr : ¬(b.flagged x y = true ∨ b.revealed x y = true))
    (hm : b.board x y ≠ -1) (h0 : b.board x y = 0) :
    reveal b x y = (Outcome.SAFE, revealAdjacent (setRevealed b x y) x y) := by
  unfold reveal
  rw [if_neg hfr]
  simp only [setRevealed_board]
  rw [if_neg hm, if_pos h0]

theorem reveal_of_number {b : Board} {x y : Nat}
    (hfr : ¬(b.flagged x y = true ∨ b.revealed x y = true))
    (hm : b.board x y ≠ -1) (h0 : b.board x y ≠ 0) :
    reveal b x y = (Outcome.SAFE, setRevealed b x y) := by
  unfold reveal
  rw [if_neg hfr]
  simp only [setRevealed_board]
  rw [if_neg hm, if_neg h0]

/-- `reveal` only changes the `revealed` mask, monotonically. -/
theorem reveal_revStep (b : Board) (x y : Nat) : RevStep b (reveal b x y).2 := by
  by_cases hfr : b.flagged x y = true ∨ b.revealed x y = true
  · rw [reveal_of_noop hfr]
    exact revStep_refl b
  · by_cases hm : b.board x y = -1
    · rw [reveal_of_mine hfr hm]
      exact revStep_setRevealed b x y
    · by_cases h0 : b.board x y = 0
      · rw [reveal_of_zero hfr hm h0]
        exact revStep_trans (revStep_setRevealed b x y) (revealAdjacent_revStep _ x y)
      · rw [reveal_of_number hfr hm h0]
        exact revStep_setRevealed b x y

/-- After any reveal, the target cell is flagged or revealed. -/
theorem reveal_target_done (b : Board) (x y : Nat) :
    (reveal b x y).2.flagged x y = true ∨ (reveal b x y).2.revealed x y = true := by
  by_cases hfr : b.flagged x y = true ∨ b.revealed x y = true
  · rw [reveal_of_noop hfr]
    exact hfr
  · have hset : (setRevealed b x y).revealed x y = true := by
      simp [setRevealed_revealed]
    by_cases hm : b.board x y = -1
    · rw [reveal_of_mine hfr hm]
      exact Or.inr hset
    · by_cases h0 : b.board x y = 0
      · rw [reveal_of_zero hfr hm h0]
        exact Or.inr ((revealAdjacent_revStep _ x y).2.2.2.2.2.2 x y hset)
      · rw [reveal_of_number hfr hm h0]
        exact Or.inr hset

/-- C3: reveal contract. On a flagged or already revealed cell `reveal` is a
`NOOP` leaving the board unchanged; in particular a second reveal of the same
cell is a `NOOP` changing no state. Otherwise it marks the cell revealed and
returns `MINE_HIT` exactly when the cell is a mine, performing no expansion in
that case (the resulting board is the input with only that cell revealed). -/
theorem claim_C3_reveal_contract :
    ∀ b x y, x < b.height → y < b.width →
      ((b.flagged x y = true ∨ b.revealed x y = true) → reveal b x y = (Outcome.NOOP, b)) ∧
      (reveal (reveal b x y).2 x y = (Outcome.NOOP, (reveal b x y).2)) ∧
      (b.flagged x y = false → b.revealed x y = false →
        (reveal b x y).2.revealed x y = true ∧
        ((reveal b x y).1 = Outcome.MINE_HIT ↔ b.board x y = -1) ∧
        (b.board x y = -1 → (reveal b x y).2 = setRevealed b x y)) := by
  intro b x y _ _
  refine ⟨fun h => reveal_of_noop h, reveal_of_noop (reveal_target_done b x y), ?_⟩
  intro hfl hrev
  have hfr : ¬(b.flagged x y = true ∨ b.revealed x y = true) := by
    simp [hfl, hrev]
  refine ⟨?_, ?_, ?_⟩
  · rcases reveal_target_done b x y with hdone | hdone
    · exfalso
      have := (reveal_revStep b x y).2.2.2.2.1
      rw [this, hfl] at hdone
      exact absurd hdone (by simp)
    · exact hdone
  · constructor
    · intro h1
      by_contra hm
      by_cases h0 : b.board x y = 0
      · rw [reveal_of_zero hfr hm h0] at h1
        exact absurd h1 (by simp)
      · rw [reveal_of_number hfr hm h0] at h1
        exact absurd h1 (by simp)
    · intro hm
      rw [reveal_of_mine hfr hm]
  · intro hm
    rw [reveal_of_mine hfr hm]

/-- C10: on a grid satisfying the number invariant, revealing an unrevealed,
unflagged, non-mine cell never changes the revealed status of any mine cell:
the flood fill recurses only from zero-valued cells, which have no adjacent
mines. -/
theorem claim_C10_no_mine_disclosure :
    ∀ b x y, CountsInv b → x < b.height → y < b.width →
      b.revealed x y = false → b.flagged x y = false → b.board x y ≠ -1 →
      ∀ a c, b.board a c = -1 → (reveal b x y).2.revealed a c = b.revealed a c := by
  intro b x y hc hx hy hrev hfl hm a c hmine
  have hfr : ¬(b.flagged x y = true ∨ b.revealed x y = true) := by
    simp [hfl, hrev]
  have hne : ¬(a = x ∧ c = y) := by
    rintro ⟨rfl, rfl⟩
    exact hm hmine
  have hset : (setRevealed b x y).revealed a c = b.revealed a c := by
    rw [setRevealed_revealed, if_neg hne]
  by_cases h0 : b.board x y = 0
  · rw [reveal_of_zero hfr hm h0]
    obtain ⟨b2, hres, _⟩ := revealAdjacentRes_isSome (setRevealed b x y) x y
    rw [revealAdjacent, hres]
    simp only [Option.getD_some]
    have hnm := revealAdjacentGo_no_mine _ (setRevealed b x y) x y b2
      (CountsInv_congr (setRevealed_height b x y) (setRevealed_width b x y)
        (setRevealed_board b x y) hc)
      hx hy (by rw [setRevealed_board]; exact h0) hres a c
      (by rw [setRevealed_board]; exact hmine)
    rw [hnm, hset]
  · rw [reveal_of_number hfr hm h0]
    exact hset

theorem mem_allCellsList {h w : Nat} {p : Nat × Nat} :
    p ∈ allCellsList h w ↔ p.1 < h ∧ p.2 < w := by
  cases p with
  | mk a c =>
    simp only [allCellsList, List.mem_flatMap, List.mem_map, List.mem_range, Prod.mk.injEq]
    constructor
    · rintro ⟨x0, hx0, y0, hy0, rfl, rfl⟩
      exact ⟨hx0, hy0⟩
    · rintro ⟨ha, hc⟩
      exact ⟨a, ha, c, hc, rfl, rfl⟩

/-- C5: win detection. `isWon` is true iff every in-bounds cell is revealed
or a mine, equivalently iff every in-bounds non-mine cell is revealed. -/
theorem claim_C5_isWon : ∀ b : Board,
    (isWon b = true ↔ ∀ x, x < b.height → ∀ y, y < b.width →
      (b.revealed x y = true ∨ b.board x y = -1)) ∧
    (isWon b = true ↔ ∀ x, x < b.height → ∀ y, y < b.width →
      (b.board x y ≠ -1 → b.revealed x y = true)) := by
  intro b
  have hmain : isWon b = true ↔ ∀ x, x < b.height → ∀ y, y < b.width →
      (b.revealed x y = true ∨ b.board x y = -1) := by
    unfold isWon
    rw [List.all_eq_true]
    constructor
    · intro hall x hx y hy
      have := hall (x, y) (mem_allCellsList.mpr ⟨hx, hy⟩)
      simpa using this
    · intro hcell p hp
      have := hcell p.1 (mem_allCellsList.mp hp).1 p.2 (mem_allCellsList.mp hp).2
      simpa using this
  refine ⟨hmain, hmain.trans ?_⟩
  constructor
  · intro h1 x hx y hy hm
    rcases h1 x hx y hy with hr | hr
    · exact hr
    · exact absurd hr hm
  · intro h1 x hx y hy
    by_cases hm : b.board x y = -1
    · exact Or.inr hm
    · exact Or.inl (h1 x hx y hy hm)

/-- With the number invariant and no in-bounds mines, all values are zero. -/
theorem AllZero_of_no_mines {b : Board} (hc : CountsInv b)
    (hnm : ∀ a c, a < b.height → c < b.width → b.board a c ≠ -1) : AllZero b := by
  intro a c ha hcw
  have h1 := hc a ha c hcw (hnm a c ha hcw)
  have h2 : countAdjacentMines b a c = 0 := by
    apply List.countP_eq_zero.mpr
    intro d _
    simp only [decide_eq_true_eq]
    rintro ⟨h3, h4, h5, h6, h7⟩
    exact hnm _ _ (by omega) (by omega) h7
  rw [h1, h2]
  simp

theorem stepToward_dist (a t : Nat) : natDist (stepToward a t) t = natDist a t - 1 := by
  unfold stepToward natDist
  by_cases h1 : a < t
  · rw [if_pos h1]
    omega
  · rw [if_neg h1]
    by_cases h2 : t < a
    · rw [if_pos h2]
      omega
    · rw [if_neg h2]
      omega

theorem stepToward_lt (a t bnd : Nat) (ha : a < bnd) (ht : t < bnd) :
    stepToward a t < bnd := by
  unfold stepToward
  by_cases h1 : a < t
  · rw [if_pos h1]
    omega
  · rw [if_neg h1]
    by_cases h2 : t < a
    · rw [if_pos h2]
      omega
    · rw [if_neg h2]
      omega

theorem stepToward_close (a t : Nat) : natDist (stepToward a t) a ≤ 1 := by
  unfold stepToward natDist
  by_cases h1 : a < t
  · rw [if_pos h1]
    omega
  · rw [if_neg h1]
    by_cases h2 : t < a
    · rw [if_pos h2]
      omega
    · rw [if_neg h2]
      omega

theorem mem_neighborDeltas_of_unit {dx dy : Int}
    (h1 : dx = -1 ∨ dx = 0 ∨ dx = 1) (h2 : dy = -1 ∨ dy = 0 ∨ dy = 1)
    (h3 : ¬(dx = 0 ∧ dy = 0)) : (dx, dy) ∈ neighborDeltas := by
  rcases h1 with rfl | rfl | rfl <;> rcases h2 with rfl | rfl | rfl
  · decide
  · decide
  · decide
  · decide
  · exact absurd ⟨rfl, rfl⟩ h3
  · decide
  · decide
  · decide
  · decide

/-- Coverage of the flood fill: on an invariant board with no mines, no flags
and nothing revealed, revealing any in-bounds cell reveals every in-bounds
cell. -/
theorem reveal_covers :
    ∀ b x y, CountsInv b → (∀ a c, a < b.height → c < b.width → b.board a c ≠ -1) →
      (∀ a c, b.revealed a c = false) → NoFlags b → x < b.height → y < b.width →
      ∀ a c, a < b.height → c < b.width → (reveal b x y).2.revealed a c = true := by
  intro b x y hc hnm hnr hnf hx hy
  have haz : AllZero b := AllZero_of_no_mines hc hnm
  have hfr : ¬(b.flagged x y = true ∨ b.revealed x y = true) := by
    simp [hnf x y, hnr x y]
  have hm : b.board x y ≠ -1 := hnm x y hx hy
  have h0 : b.board x y = 0 := haz x y hx hy
  rw [reveal_of_zero hfr hm h0]
  obtain ⟨b2, hres, sres⟩ := revealAdjacentRes_isSome (setRevealed b x y) x y
  rw [revealAdjacent, hres]
  simp only [Option.getD_some]
  have hh2 : b2.height = b.height := sres.2.1.trans (setRevealed_height b x y)
  have hw2 : b2.width = b.width := sres.1.trans (setRevealed_width b x y)
  have hb1az : AllZero (setRevealed b x y) := by
    intro a c ha hcw
    rw [setRevealed_board]
    exact haz a c ha hcw
  have hb1nf : NoFlags (setRevealed b x y) := fun a c => hnf a c
  have hcenter : b2.revealed x y = true :=
    sres.2.2.2.2.2.2 x y (by simp [setRevealed_revealed])
  have hclos : Closure (setRevealed b x y) b2 :=
    revealAdjacentGo_closure _ _ x y b2 hb1az hb1nf hres
  have hcnbrs : NbrsRevealed b2 x y := by
    intro d hd hin
    refine revealAdjacentGo_neighbors hres d hd ?_ (hnf _ _)
    exact (nbrIn_congr sres.2.1 sres.1 x y d).mp hin
  have hstep : ∀ a c, a < b.height → c < b.width → b2.revealed a c = true →
      NbrsRevealed b2 a c := by
    intro a c ha hcw hrev
    rcases hclos a c (by rw [hh2]; exact ha) (by rw [hw2]; exact hcw) hrev with h1 | h1
    · rw [setRevealed_revealed] at h1
      by_cases he : a = x ∧ c = y
      · rw [he.1, he.2]
        exact hcnbrs
      · rw [if_neg he, hnr a c] at h1
        exact absurd h1 (by simp)
    · exact h1
  have main : ∀ n a c, a < b.height → c < b.width → cheb (a, c) (x, y) = n →
      b2.revealed a c = true := by
    intro n
    induction n with
    | zero =>
      intro a c _ _ hch
      have hxy : a = x ∧ c = y := by
        simp only [cheb, natDist] at hch
        constructor <;> omega
      rw [hxy.1, hxy.2]
      exact hcenter
    | succ n ih =>
      intro a c ha hcw hch
      have ha2 : stepToward a x < b.height := stepToward_lt a x b.height ha hx
      have hc2 : stepToward c y < b.width := stepToward_lt c y b.width hcw hy
      have hch2 : cheb (stepToward a x, stepToward c y) (x, y) = n := by
        simp only [cheb] at hch ⊢
        rw [stepToward_dist, stepToward_dist]
        omega
      have hrev2 := ih (stepToward a x) (stepToward c y) ha2 hc2 hch2
      have hnbrs := hstep (stepToward a x) (stepToward c y) ha2 hc2 hrev2
      have hda : natDist (stepToward a x) a ≤ 1 := stepToward_close a x
      have hdc : natDist (stepToward c y) c ≤ 1 := stepToward_close c y
      have hne : ¬(stepToward a x = a ∧ stepToward c y = c) := by
        rintro ⟨h1, h2⟩
        simp only [cheb] at hch hch2
        rw [h1, h2] at hch2
        omega
      have hdx : (a : Int) - (stepToward a x : Int) = -1 ∨
          (a : Int) - (stepToward a x : Int) = 0 ∨
          (a : Int) - (stepToward a x : Int) = 1 := by
        unfold natDist at hda
        omega
      have hdy : (c : Int) - (stepToward c y : Int) = -1 ∨
          (c : Int) - (stepToward c y : Int) = 0 ∨
          (c : Int) - (stepToward c y : Int) = 1 := by
        unfold natDist at hdc
        omega
      have hne2 : ¬((a : Int) - (stepToward a x : Int) = 0 ∧
          (c : Int) - (stepToward c y : Int) = 0) := by
        rintro ⟨h1, h2⟩
        exact hne ⟨by omega, by omega⟩
      have hin : nbrIn b2 (stepToward a x) (stepToward c y)
          ((a : Int) - (stepToward a x : Int), (c : Int) - (stepToward c y : Int)) := by
        refine ⟨by omega, ?_, by omega, ?_⟩
        · rw [hh2]
          have : (stepToward a x : Int) + ((a : Int) - (stepToward a x : Int)) = (a : Int) := by
            ring
          rw [this]
          exact_mod_cast ha
        · rw [hw2]
          have : (stepToward c y : Int) + ((c : Int) - (stepToward c y : Int)) = (c : Int) := by
            ring
          rw [this]
          exact_mod_cast hcw
      have hfin := hnbrs _ (mem_neighborDeltas_of_unit hdx hdy hne2) hin
      have hta : ((stepToward a x : Int) + ((a : Int) - (stepToward a x : Int))).toNat = a := by
        omega
      have htc : ((stepToward c y : Int) + ((c : Int) - (stepToward c y : Int))).toNat = c := by
        omega
      rw [hta, htc] at hfin
      exact hfin
  intro a c ha hcw
  exact main (cheb (a, c) (x, y)) a c ha hcw rfl

/-- C4: flood-fill termination and coverage. The flood fill terminates on
every grid (the canonical fuel never runs out); on an invariant grid with no
mines, no flags and nothing revealed, revealing any in-bounds cell reveals
every in-bounds cell (each exactly once, since reveals are monotone); the
expansion touches no flagged cell and never unreveals a cell. -/
theorem claim_C4_flood_fill :
    (∀ b x y, (revealAdjacentRes b x y).isSome = true) ∧
    (∀ b x y, CountsInv b → (∀ a c, a < b.height → c < b.width → b.board a c ≠ -1) →
      (∀ a c, b.revealed a c = false) → NoFlags b → x < b.height → y < b.width →
      ∀ a c, a < b.height → c < b.width → (reveal b x y).2.revealed a c = true) ∧
    (∀ b x y a c, b.flagged a c = true →
      (reveal b x y).2.revealed a c = b.revealed a c) ∧
    (∀ b x y a c, b.revealed a c = true → (reveal b x y).2.revealed a c = true) := by
  refine ⟨?_, reveal_covers, ?_, ?_⟩
  · intro b x y
    obtain ⟨b2, hres, _⟩ := revealAdjacentRes_isSome b x y
    rw [hres]
    rfl
  · intro b x y a c hfl
    by_cases hfr : b.flagged x y = true ∨ b.revealed x y = true
    · rw [reveal_of_noop hfr]
    · have hne : ¬(a = x ∧ c = y) := by
        rintro ⟨rfl, rfl⟩
        rcases hfr (Or.inl hfl)
      have hset : (setRevealed b x y).revealed a c = b.revealed a c := by
        rw [setRevealed_revealed, if_neg hne]
      by_cases hmn : b.board x y = -1
      · rw [reveal_of_mine hfr hmn]
        exact hset
      · by_cases h0 : b.board x y = 0
        · rw [reveal_of_zero hfr hmn h0]
          obtain ⟨b2, hres, _⟩ := revealAdjacentRes_isSome (setRevealed b x y) x y
          rw [revealAdjacent, hres]
          simp only [Option.getD_some]
          have := revealAdjacentGo_flag_keep _ (setRevealed b x y) x y b2 hres a c hfl
          rw [this, hset]
        · rw [reveal_of_number hfr hmn h0]
          exact hset
  · intro b x y a c hrev
    exact (reveal_revStep b x y).2.2.2.2.2.2 a c hrev

theorem countP_congr_mem {α : Type} {l : List α} {p q : α → Bool}
    (h : ∀ a ∈ l, p a = q a) : l.countP p = l.countP q := by
  induction l with
  | nil => rfl
  | cons a l ih =>
    rw [List.countP_cons, List.countP_cons, h a (List.mem_cons_self a l),
      ih (fun a ha => h a (List.mem_cons_of_mem _ ha))]

theorem numFix_refl (b : Board) : NumFix b b :=
  ⟨Eq.refl _, Eq.refl _, Eq.refl _, Eq.refl _, Eq.refl _, Eq.refl _, fun _ _ => Iff.rfl⟩

theorem numFix_trans {b b2 b3 : Board} (h1 : NumFix b b2) (h2 : NumFix b2 b3) :
    NumFix b b3 :=
  ⟨h2.1.trans h1.1, h2.2.1.trans h1.2.1, h2.2.2.1.trans h1.2.2.1,
    h2.2.2.2.1.trans h1.2.2.2.1, h2.2.2.2.2.1.trans h1.2.2.2.2.1,
    h2.2.2.2.2.2.1.trans h1.2.2.2.2.2.1,
    fun a c => (h2.2.2.2.2.2.2 a c).trans (h1.2.2.2.2.2.2 a c)⟩

theorem recomputeCell_board_other {b : Board} {x y a c : Nat}
    (h : ¬(a = x ∧ c = y)) : (recomputeCell b x y).board a c = b.board a c := by
  unfold recomputeCell
  split
  · rfl
  · simp only [if_neg h]

theorem recomputeCell_board_at {b : Board} {x y : Nat} (h : b.board x y ≠ -1) :
    (recomputeCell b x y).board x y = (countAdjacentMines b x y : Int) := by
  unfold recomputeCell
  rw [if_neg h]
  simp

theorem recomputeCell_numFix (b : Board) (x y : Nat) :
    NumFix b (recomputeCell b x y) := by
  unfold recomputeCell
  split
  · exact numFix_refl b
  · refine ⟨Eq.refl _, Eq.refl _, Eq.refl _, Eq.refl _, Eq.refl _, Eq.refl _, fun a c => ?_⟩
    simp only
    by_cases he : a = x ∧ c = y
    · rw [if_pos he, he.1, he.2]
      constructor
      · intro hcast
        exact absurd hcast (by omega)
      · intro hmine
        next hnm => exact absurd hmine hnm
    · rw [if_neg he]

theorem countAdjacentMines_numFix {b b2 : Board} (h : NumFix b b2) (x y : Nat) :
    countAdjacentMines b2 x y = countAdjacentMines b x y := by
  unfold countAdjacentMines
  refine countP_congr_mem (fun d _ => ?_)
  rw [decide_eq_decide, h.1, h.2.1]
  constructor
  · rintro ⟨a1, a2, a3, a4, a5⟩
    exact ⟨a1, a2, a3, a4, (h.2.2.2.2.2.2 _ _).mp a5⟩
  · rintro ⟨a1, a2, a3, a4, a5⟩
    exact ⟨a1, a2, a3, a4, (h.2.2.2.2.2.2 _ _).mpr a5⟩

theorem foldRecompute_numFix :
    ∀ (l : List (Nat × Nat)) (b : Board),
      NumFix b (l.foldl (fun acc p => recomputeCell acc p.1 p.2) b) := by
  intro l
  induction l with
  | nil => exact fun b => numFix_refl b
  | cons q l ih =>
    intro b
    exact numFix_trans (recomputeCell_numFix b q.1 q.2) (ih (recomputeCell b q.1 q.2))

theorem foldRecompute_outside :
    ∀ (l : List (Nat × Nat)) (b : Board) (a c : Nat), (¬(a, c) ∈ l) →
      (l.foldl (fun acc p => recomputeCell acc p.1 p.2) b).board a c = b.board a c := by
  intro l
  induction l with
  | nil => intro b a c _; rfl
  | cons q l ih =>
    intro b a c hnot
    have h1 : ¬(a, c) ∈ l := fun hmem => hnot (List.mem_cons_of_mem q hmem)
    have h2 : ¬(a = q.1 ∧ c = q.2) := by
      rintro ⟨rfl, rfl⟩
      exact hnot (by cases q; exact List.mem_cons_self _ _)
    rw [List.foldl_cons, ih (recomputeCell b q.1 q.2) a c h1, recomputeCell_board_other h2]

theorem foldRecompute_mem :
    ∀ (l : List (Nat × Nat)) (b : Board) (a c : Nat), (a, c) ∈ l →
      b.board a c ≠ -1 →
      (l.foldl (fun acc p => recomputeCell acc p.1 p.2) b).board a c
        = (countAdjacentMines b a c : Int) := by
  intro l
  induction l with
  | nil =>
    intro b a c hmem
    exact absurd hmem (List.not_mem_nil _)
  | cons q l ih =>
    intro b a c hmem hnm
    rw [List.foldl_cons]
    by_cases hin : (a, c) ∈ l
    · have hfix := recomputeCell_numFix b q.1 q.2
      have hnm2 : (recomputeCell b q.1 q.2).board a c ≠ -1 := by
        intro hcontra
        exact hnm ((hfix.2.2.2.2.2.2 a c).mp hcontra)
      rw [ih (recomputeCell b q.1 q.2) a c hin hnm2, countAdjacentMines_numFix hfix]
    · have heq : a = q.1 ∧ c = q.2 := by
        rcases List.mem_cons.mp hmem with h | h
        · exact ⟨congrArg Prod.fst h, congrArg Prod.snd h⟩
        · exact absurd h hin
      rw [foldRecompute_outside l _ a c hin]
      rw [heq.1, heq.2] at hnm ⊢
      exact recomputeCell_board_at hnm

theorem mem_range1 {s n m : Nat} : m ∈ List.range' s n ↔ s ≤ m ∧ m < s + n := by
  rw [List.mem_range']
  constructor
  · rintro ⟨i, hi, rfl⟩
    omega
  · intro h
    exact ⟨m - s, by omega, by omega⟩

theorem mem_rectCells {b : Board} {cx cy a c : Nat} :
    (a, c) ∈ rectCells b cx cy ↔
      (cx - 1 ≤ a ∧ a < min b.height (cx + 2) ∧ cy - 1 ≤ c ∧ c < min b.width (cy + 2)) := by
  simp only [rectCells, List.mem_flatMap, List.mem_map, Prod.mk.injEq]
  constructor
  · rintro ⟨x0, hx0, y0, hy0, rfl, rfl⟩
    rw [mem_range1] at hx0 hy0
    omega
  · rintro ⟨h1, h2, h3, h4⟩
    refine ⟨a, ?_, c, ?_, rfl, rfl⟩
    · rw [mem_range1]
      omega
    · rw [mem_range1]
      omega

/-- For in-bounds cells, membership in the clipped 3x3 rectangle is exactly
Chebyshev distance at most 1 from the center. -/
theorem mem_rectCells_iff_near {b : Board} {cx cy a c : Nat}
    (ha : a < b.height) (hc : c < b.width) :
    (a, c) ∈ rectCells b cx cy ↔ (natDist a cx ≤ 1 ∧ natDist c cy ≤ 1) := by
  rw [mem_rectCells]
  unfold natDist
  omega

theorem neighborDeltas_range :
    ∀ d ∈ neighborDeltas, (-1 ≤ d.1 ∧ d.1 ≤ 1 ∧ -1 ≤ d.2 ∧ d.2 ≤ 1) := by
  decide

/-- Counting adjacent mines only looks at the 3x3 block around the cell. -/
theorem countAdjacentMines_local {b b2 : Board}
    (hh : b2.height = b.height) (hw : b2.width = b.width) (a c : Nat)
    (hloc : ∀ u v : Nat, natDist u a ≤ 1 → natDist v c ≤ 1 →
      (b2.board u v = -1 ↔ b.board u v = -1)) :
    countAdjacentMines b2 a c = countAdjacentMines b a c := by
  unfold countAdjacentMines
  refine countP_congr_mem (fun d hd => ?_)
  have hr := neighborDeltas_range d hd
  rw [decide_eq_decide, hh, hw]
  constructor
  · rintro ⟨a1, a2, a3, a4, a5⟩
    refine ⟨a1, a2, a3, a4, ?_⟩
    refine (hloc _ _ ?_ ?_).mp a5 <;> · unfold natDist; omega
  · rintro ⟨a1, a2, a3, a4, a5⟩
    refine ⟨a1, a2, a3, a4, ?_⟩
    refine (hloc _ _ ?_ ?_).mpr a5 <;> · unfold natDist; omega

theorem natDist_symm (a b : Nat) : natDist a b = natDist b a := by
  unfold natDist
  omega

@[simp] theorem natDist_self (a : Nat) : natDist a a = 0 := by
  unfold natDist
  omega

theorem rectCells_congr {b b2 : Board} (hh : b2.height = b.height)
    (hw : b2.width = b.width) (cx cy : Nat) :
    rectCells b2 cx cy = rectCells b cx cy := by
  unfold rectCells
  rw [hh, hw]

theorem rectCells_swapBoard (b : Board) (p1 p2 : Nat × Nat) (cx cy : Nat) :
    rectCells (swapBoard b p1 p2) cx cy = rectCells b cx cy := rfl

theorem recomputeRect_numFix (b : Board) (cx cy : Nat) :
    NumFix b (recomputeRect b cx cy) :=
  foldRecompute_numFix (rectCells b cx cy) b

theorem repositionMine_guard {b : Board} {p1 p2 : Nat × Nat}
    (h : b.board p1.1 p1.2 ≠ -1 ∨ b.board p2.1 p2.2 = -1) :
    repositionMine b p1 p2 = b := by
  unfold repositionMine
  rw [if_pos h]

theorem repositionMine_ok_eq {b : Board} {p1 p2 : Nat × Nat}
    (h1 : b.board p1.1 p1.2 = -1) (h2 : b.board p2.1 p2.2 ≠ -1) :
    repositionMine b p1 p2 =
      recomputeRect (recomputeRect (swapBoard b p1 p2) p1.1 p1.2) p2.1 p2.2 := by
  unfold repositionMine
  rw [if_neg ?_]
  rintro (h | h)
  · exact h h1
  · exact h2 h

theorem swapBoard_board (b : Board) (p1 p2 : Nat × Nat) (a c : Nat) :
    (swapBoard b p1 p2).board a c =
      if a = p1.1 ∧ c = p1.2 then 0
      else if a = p2.1 ∧ c = p2.2 then -1
      else b.board a c := rfl

theorem swapBoard_mineness {b : Board} {p1 p2 : Nat × Nat}
    (h1 : b.board p1.1 p1.2 = -1) (h2 : b.board p2.1 p2.2 ≠ -1) (a c : Nat) :
    ((swapBoard b p1 p2).board a c = -1 ↔
      ((a = p2.1 ∧ c = p2.2) ∨ (¬(a = p1.1 ∧ c = p1.2) ∧ b.board a c = -1))) := by
  rw [swapBoard_board]
  by_cases hp1e : a = p1.1 ∧ c = p1.2
  · rw [if_pos hp1e]
    constructor
    · intro h
      exact absurd h (by decide)
    · rintro (⟨e1, e2⟩ | ⟨hnp, _⟩)
      · exfalso
        apply h2
        rw [← e1, ← e2, hp1e.1, hp1e.2]
        exact h1
      · exact absurd hp1e hnp
  · rw [if_neg hp1e]
    by_cases hp2e : a = p2.1 ∧ c = p2.2
    · rw [if_pos hp2e]
      simp [hp2e]
    · rw [if_neg hp2e]
      constructor
      · intro h
        exact Or.inr ⟨hp1e, h⟩
      · rintro (h | ⟨_, h⟩)
        · exact absurd h hp2e
        · exact h

/-- The masked state (revealed, flagged), the dimensions and the target mine
count are never touched by `reposition_mine`. -/
theorem repositionMine_masks (b : Board) (p1 p2 : Nat × Nat) :
    (repositionMine b p1 p2).revealed = b.revealed ∧
    (repositionMine b p1 p2).flagged = b.flagged ∧
    (repositionMine b p1 p2).height = b.height ∧
    (repositionMine b p1 p2).width = b.width ∧
    (repositionMine b p1 p2).mineCount = b.mineCount := by
  by_cases hg : b.board p1.1 p1.2 ≠ -1 ∨ b.board p2.1 p2.2 = -1
  · rw [repositionMine_guard hg]
    exact ⟨rfl, rfl, rfl, rfl, rfl⟩
  · push_neg at hg
    rw [repositionMine_ok_eq hg.1 hg.2]
    have hfix : NumFix (swapBoard b p1 p2)
        (recomputeRect (recomputeRect (swapBoard b p1 p2) p1.1 p1.2) p2.1 p2.2) :=
      numFix_trans (recomputeRect_numFix _ p1.1 p1.2) (recomputeRect_numFix _ p2.1 p2.2)
    exact ⟨hfix.2.2.2.1, hfix.2.2.2.2.1, hfix.1, hfix.2.1, hfix.2.2.1⟩

/-- After a successful reposition, `mine_positions` is updated by
erase-then-insert. -/
theorem repositionMine_mines_ok {b : Board} {p1 p2 : Nat × Nat}
    (h1 : b.board p1.1 p1.2 = -1) (h2 : b.board p2.1 p2.2 ≠ -1) :
    (repositionMine b p1 p2).minePositions = insert p2 (b.minePositions.erase p1) := by
  rw [repositionMine_ok_eq h1 h2]
  have hfix : NumFix (swapBoard b p1 p2)
      (recomputeRect (recomputeRect (swapBoard b p1 p2) p1.1 p1.2) p2.1 p2.2) :=
    numFix_trans (recomputeRect_numFix _ p1.1 p1.2) (recomputeRect_numFix _ p2.1 p2.2)
  exact hfix.2.2.2.2.2.1

/-- After a successful reposition, the mine cells are exactly the old ones
with `p1` removed and `p2` added. -/
theorem repositionMine_mineness_ok {b : Board} {p1 p2 : Nat × Nat}
    (h1 : b.board p1.1 p1.2 = -1) (h2 : b.board p2.1 p2.2 ≠ -1) (a c : Nat) :
    ((repositionMine b p1 p2).board a c = -1 ↔
      ((a = p2.1 ∧ c = p2.2) ∨ (¬(a = p1.1 ∧ c = p1.2) ∧ b.board a c = -1))) := by
  rw [repositionMine_ok_eq h1 h2]
  have hfix : NumFix (swapBoard b p1 p2)
      (recomputeRect (recomputeRect (swapBoard b p1 p2) p1.1 p1.2) p2.1 p2.2) :=
    numFix_trans (recomputeRect_numFix _ p1.1 p1.2) (recomputeRect_numFix _ p2.1 p2.2)
  rw [hfix.2.2.2.2.2.2 a c]
  exact swapBoard_mineness h1 h2 a c

/-- After a successful reposition, every in-bounds cell outside both 3x3
neighborhoods keeps its exact value. -/
theorem repositionMine_outside_ok {b : Board} {p1 p2 : Nat × Nat}
    (h1 : b.board p1.1 p1.2 = -1) (h2 : b.board p2.1 p2.2 ≠ -1) (a c : Nat)
    (ha : a < b.height) (hc : c < b.width)
    (hout1 : ¬(natDist a p1.1 ≤ 1 ∧ natDist c p1.2 ≤ 1))
    (hout2 : ¬(natDist a p2.1 ≤ 1 ∧ natDist c p2.2 ≤ 1)) :
    (repositionMine b p1 p2).board a c = b.board a c := by
  rw [repositionMine_ok_eq h1 h2]
  have hfix1 : NumFix (swapBoard b p1 p2)
      (recomputeRect (swapBoard b p1 p2) p1.1 p1.2) := recomputeRect_numFix _ p1.1 p1.2
  have hmem2 : ¬(a, c) ∈ rectCells (recomputeRect (swapBoard b p1 p2) p1.1 p1.2) p2.1 p2.2 := by
    rw [rectCells_congr hfix1.1 hfix1.2.1, rectCells_swapBoard,
      mem_rectCells_iff_near ha hc]
    exact hout2
  have hmem1 : ¬(a, c) ∈ rectCells (swapBoard b p1 p2) p1.1 p1.2 := by
    rw [rectCells_swapBoard, mem_rectCells_iff_near ha hc]
    exact hout1
  have e2 := foldRecompute_outside _ (recomputeRect (swapBoard b p1 p2) p1.1 p1.2) a c hmem2
  have e1 := foldRecompute_outside _ (swapBoard b p1 p2) a c hmem1
  rw [show recomputeRect (recomputeRect (swapBoard b p1 p2) p1.1 p1.2) p2.1 p2.2
      = (rectCells (recomputeRect (swapBoard b p1 p2) p1.1 p1.2) p2.1 p2.2).foldl
        (fun acc p => recomputeCell acc p.1 p.2)
        (recomputeRect (swapBoard b p1 p2) p1.1 p1.2) from rfl]
  rw [e2]
  rw [show recomputeRect (swapBoard b p1 p2) p1.1 p1.2
      = (rectCells (swapBoard b p1 p2) p1.1 p1.2).foldl
        (fun acc p => recomputeCell acc p.1 p.2) (swapBoard b p1 p2) from rfl]
  rw [e1, swapBoard_board]
  have hne1 : ¬(a = p1.1 ∧ c = p1.2) := by
    rintro ⟨rfl, rfl⟩
    simp at hout1
  have hne2 : ¬(a = p2.1 ∧ c = p2.2) := by
    rintro ⟨rfl, rfl⟩
    simp at hout2
  rw [if_neg hne1, if_neg hne2]

theorem recomputeRect_mem {b : Board} {cx cy a c : Nat}
    (hmem : (a, c) ∈ rectCells b cx cy) (hnm : b.board a c ≠ -1) :
    (recomputeRect b cx cy).board a c = (countAdjacentMines b a c : Int) :=
  foldRecompute_mem _ b a c hmem hnm

theorem recomputeRect_outside {b : Board} {cx cy a c : Nat}
    (hmem : ¬(a, c) ∈ rectCells b cx cy) :
    (recomputeRect b cx cy).board a c = b.board a c :=
  foldRecompute_outside _ b a c hmem

/-- After a successful reposition of an invariant board, every in-bounds
non-mine cell again stores its exact adjacent-mine count. -/
theorem repositionMine_counts_ok {b : Board} {p1 p2 : Nat × Nat}
    (hc : CountsInv b)
    (h1 : b.board p1.1 p1.2 = -1) (h2 : b.board p2.1 p2.2 ≠ -1) :
    CountsInv (repositionMine b p1 p2) := by
  intro a ha c hcw hnm
  have hmk := repositionMine_masks b p1 p2
  rw [hmk.2.2.1] at ha
  rw [hmk.2.2.2.1] at hcw
  have nf1 : NumFix (swapBoard b p1 p2) (recomputeRect (swapBoard b p1 p2) p1.1 p1.2) :=
    recomputeRect_numFix _ _ _
  have nf2 : NumFix (recomputeRect (swapBoard b p1 p2) p1.1 p1.2)
      (recomputeRect (recomputeRect (swapBoard b p1 p2) p1.1 p1.2) p2.1 p2.2) :=
    recomputeRect_numFix _ _ _
  have nfAll := numFix_trans nf1 nf2
  by_cases hn2 : natDist a p2.1 ≤ 1 ∧ natDist c p2.2 ≤ 1
  · rw [repositionMine_ok_eq h1 h2] at hnm ⊢
    have hmem : (a, c) ∈ rectCells (recomputeRect (swapBoard b p1 p2) p1.1 p1.2) p2.1 p2.2 := by
      rw [rectCells_congr nf1.1 nf1.2.1, rectCells_swapBoard, mem_rectCells_iff_near ha hcw]
      exact hn2
    have hnmF1 : (recomputeRect (swapBoard b p1 p2) p1.1 p1.2).board a c ≠ -1 := by
      intro hcon
      exact hnm ((nf2.2.2.2.2.2.2 a c).mpr hcon)
    rw [recomputeRect_mem hmem hnmF1, countAdjacentMines_numFix nf2 a c]
  · by_cases hn1 : natDist a p1.1 ≤ 1 ∧ natDist c p1.2 ≤ 1
    · rw [repositionMine_ok_eq h1 h2] at hnm ⊢
      have hout2 : ¬(a, c) ∈ rectCells (recomputeRect (swapBoard b p1 p2) p1.1 p1.2)
          p2.1 p2.2 := by
        rw [rectCells_congr nf1.1 nf1.2.1, rectCells_swapBoard, mem_rectCells_iff_near ha hcw]
        exact hn2
      have hmem1 : (a, c) ∈ rectCells (swapBoard b p1 p2) p1.1 p1.2 := by
        rw [rectCells_swapBoard, mem_rectCells_iff_near ha hcw]
        exact hn1
      have hnmB1 : (swapBoard b p1 p2).board a c ≠ -1 := by
        intro hcon
        exact hnm ((nfAll.2.2.2.2.2.2 a c).mpr hcon)
      rw [recomputeRect_outside hout2, recomputeRect_mem hmem1 hnmB1,
        countAdjacentMines_numFix nfAll a c]
    · have hbne1 : ¬(a = p1.1 ∧ c = p1.2) := by
        rintro ⟨rfl, rfl⟩
        simp at hn1
      have hbne2 : ¬(a = p2.1 ∧ c = p2.2) := by
        rintro ⟨rfl, rfl⟩
        simp at hn2
      have hmineAC : b.board a c ≠ -1 := by
        intro hcon
        apply hnm
        rw [repositionMine_mineness_ok h1 h2 a c]
        exact Or.inr ⟨hbne1, hcon⟩
      have hcountEq : countAdjacentMines (repositionMine b p1 p2) a c
          = countAdjacentMines b a c := by
        refine countAdjacentMines_local hmk.2.2.1 hmk.2.2.2.1 a c ?_
        intro u v hu hv
        rw [repositionMine_mineness_ok h1 h2 u v]
        have hup1 : ¬(u = p1.1 ∧ v = p1.2) := by
          rintro ⟨rfl, rfl⟩
          exact hn1 ⟨natDist_symm p1.1 a ▸ hu, natDist_symm p1.2 c ▸ hv⟩
        have hup2 : ¬(u = p2.1 ∧ v = p2.2) := by
          rintro ⟨rfl, rfl⟩
          exact hn2 ⟨natDist_symm p2.1 a ▸ hu, natDist_symm p2.2 c ▸ hv⟩
        constructor
        · rintro (he | ⟨_, hm⟩)
          · exact absurd he hup2
          · exact hm
        · intro hm
          exact Or.inr ⟨hup1, hm⟩
      rw [repositionMine_outside_ok h1 h2 a c ha hcw hn1 hn2, hcountEq]
      exact hc a ha c hcw hmineAC

/-- C2: reposition contract. With in-bounds `from`/`to`, if `from` is not a
mine or `to` is a mine the call is a silent no-op returning the board
unchanged; otherwise it clears the mine at `from`, sets a mine at `to`,
replaces `from` by `to` in the mine set, leaves the revealed/flagged masks
untouched, and changes values only inside the two 3x3 neighborhoods: every
in-bounds cell outside both keeps its exact value. -/
theorem claim_C2_reposition_contract :
    ∀ b (p1 p2 : Nat × Nat), p1.1 < b.height → p1.2 < b.width →
      p2.1 < b.height → p2.2 < b.width →
      ((b.board p1.1 p1.2 ≠ -1 ∨ b.board p2.1 p2.2 = -1) → repositionMine b p1 p2 = b) ∧
      (b.board p1.1 p1.2 = -1 → b.board p2.1 p2.2 ≠ -1 →
        (repositionMine b p1 p2).board p2.1 p2.2 = -1 ∧
        (repositionMine b p1 p2).board p1.1 p1.2 ≠ -1 ∧
        (repositionMine b p1 p2).minePositions = insert p2 (b.minePositions.erase p1) ∧
        (repositionMine b p1 p2).revealed = b.revealed ∧
        (repositionMine b p1 p2).flagged = b.flagged ∧
        (∀ a c, a < b.height → c < b.width →
          ¬(natDist a p1.1 ≤ 1 ∧ natDist c p1.2 ≤ 1) →
          ¬(natDist a p2.1 ≤ 1 ∧ natDist c p2.2 ≤ 1) →
          (repositionMine b p1 p2).board a c = b.board a c)) := by
  intro b p1 p2 _ _ _ _
  refine ⟨fun h => repositionMine_guard h, ?_⟩
  intro h1 h2
  refine ⟨?_, ?_, repositionMine_mines_ok h1 h2, (repositionMine_masks b p1 p2).1,
    (repositionMine_masks b p1 p2).2.1, ?_⟩
  · exact (repositionMine_mineness_ok h1 h2 p2.1 p2.2).mpr (Or.inl ⟨rfl, rfl⟩)
  · intro hcon
    rcases (repositionMine_mineness_ok h1 h2 p1.1 p1.2).mp hcon with ⟨e1, e2⟩ | ⟨hne, _⟩
    · apply h2
      rw [← e1, ← e2]
      exact h1
    · exact hne ⟨rfl, rfl⟩
  · intro a c ha hcw hn1 hn2
    exact repositionMine_outside_ok h1 h2 a c ha hcw hn1 hn2

theorem GridInv_of_revStep {b b2 : Board} (s : RevStep b b2) (h : GridInv b) :
    GridInv b2 := by
  obtain ⟨hcnt, ⟨hm1, hm2⟩, hcard⟩ := h
  refine ⟨CountsInv_congr s.2.1 s.1 s.2.2.2.1 hcnt, ⟨?_, ?_⟩, ?_⟩
  · intro x hx y hy
    rw [s.2.2.2.2.2.1, s.2.2.2.1]
    exact hm1 x (s.2.1 ▸ hx) y (s.1 ▸ hy)
  · intro p hp
    rw [s.2.2.2.2.2.1] at hp
    rw [s.2.1, s.1]
    exact hm2 p hp
  · rw [s.2.2.2.2.2.1, s.2.2.1]
    exact hcard

theorem toggleFlag_fields (b : Board) (x y : Nat) :
    (toggleFlag b x y).height = b.height ∧ (toggleFlag b x y).width = b.width ∧
    (toggleFlag b x y).mineCount = b.mineCount ∧ (toggleFlag b x y).board = b.board ∧
    (toggleFlag b x y).revealed = b.revealed ∧
    (toggleFlag b x y).minePositions = b.minePositions := by
  unfold toggleFlag
  split
  · exact ⟨rfl, rfl, rfl, rfl, rfl, rfl⟩
  · exact ⟨rfl, rfl, rfl, rfl, rfl, rfl⟩

theorem GridInv_toggleFlag {b : Board} (h : GridInv b) (x y : Nat) :
    GridInv (toggleFlag b x y) := by
  obtain ⟨h1, h2, h3, h4, _, h6⟩ := toggleFlag_fields b x y
  obtain ⟨hcnt, ⟨hm1, hm2⟩, hcard⟩ := h
  refine ⟨CountsInv_congr h1 h2 h4 hcnt, ⟨?_, ?_⟩, ?_⟩
  · intro a ha c hc
    rw [h6, h4]
    exact hm1 a (h1 ▸ ha) c (h2 ▸ hc)
  · intro p hp
    rw [h6] at hp
    rw [h1, h2]
    exact hm2 p hp
  · rw [h6, h3]
    exact hcard

theorem GridInv_repositionMine {b : Board} (h : GridInv b) (p1 p2 : Nat × Nat)
    (hp1h : p1.1 < b.height) (hp1w : p1.2 < b.width)
    (hp2h : p2.1 < b.height) (hp2w : p2.2 < b.width) :
    GridInv (repositionMine b p1 p2) := by
  by_cases hg : b.board p1.1 p1.2 ≠ -1 ∨ b.board p2.1 p2.2 = -1
  · rw [repositionMine_guard hg]
    exact h
  · push_neg at hg
    obtain ⟨h1, h2⟩ := hg
    obtain ⟨hcnt, ⟨hm1, hm2⟩, hcard⟩ := h
    have hp1mem : p1 ∈ b.minePositions := by
      have := (hm1 p1.1 hp1h p1.2 hp1w).mpr h1
      exact this
    have hp2mem : p2 ∉ b.minePositions := by
      intro hmem
      exact h2 ((hm1 p2.1 hp2h p2.2 hp2w).mp hmem)
    have hmk := repositionMine_masks b p1 p2
    refine ⟨repositionMine_counts_ok hcnt h1 h2, ⟨?_, ?_⟩, ?_⟩
    · intro a ha c hc
      rw [repositionMine_mines_ok h1 h2, repositionMine_mineness_ok h1 h2 a c,
        Finset.mem_insert, Finset.mem_erase]
      rw [hmk.2.2.1] at ha
      rw [hmk.2.2.2.1] at hc
      have hold := hm1 a ha c hc
      constructor
      · rintro (he | ⟨hne, hmem⟩)
        · exact Or.inl ⟨congrArg Prod.fst he, congrArg Prod.snd he⟩
        · refine Or.inr ⟨?_, hold.mp hmem⟩
          rintro ⟨e1, e2⟩
          exact hne (Prod.ext e1 e2)
      · rintro (⟨e1, e2⟩ | ⟨hne, hmm⟩)
        · exact Or.inl (Prod.ext e1 e2)
        · refine Or.inr ⟨?_, hold.mpr hmm⟩
          intro he
          exact hne ⟨congrArg Prod.fst he, congrArg Prod.snd he⟩
    · intro p hp
      rw [repositionMine_mines_ok h1 h2] at hp
      rw [hmk.2.2.1, hmk.2.2.2.1]
      rcases Finset.mem_insert.mp hp with rfl | hp2
      · exact ⟨hp2h, hp2w⟩
      · exact hm2 p (Finset.mem_of_mem_erase hp2)
    · rw [repositionMine_mines_ok h1 h2, hmk.2.2.2.2]
      have hpne : p2 ∉ b.minePositions.erase p1 := fun hmem =>
        hp2mem (Finset.mem_of_mem_erase hmem)
      rw [Finset.card_insert_of_not_mem hpne, Finset.card_erase_of_mem hp1mem]
      have hpos : 0 < b.minePositions.card := Finset.card_pos.mpr ⟨p1, hp1mem⟩
      omega

theorem applyOp_dims (b : Board) (op : Op) :
    (applyOp b op).height = b.height ∧ (applyOp b op).width = b.width := by
  cases op with
  | revealOp x y => exact ⟨(reveal_revStep b x y).2.1, (reveal_revStep b x y).1⟩
  | toggleOp x y => exact ⟨(toggleFlag_fields b x y).1, (toggleFlag_fields b x y).2.1⟩
  | repositionOp p1 p2 =>
    exact ⟨(repositionMine_masks b p1 p2).2.2.1, (repositionMine_masks b p1 p2).2.2.2.1⟩

theorem GridInv_applyOp {b : Board} (h : GridInv b) {op : Op}
    (hop : opInBounds b.height b.width op) : GridInv (applyOp b op) := by
  cases op with
  | revealOp x y => exact GridInv_of_revStep (reveal_revStep b x y) h
  | toggleOp x y => exact GridInv_toggleFlag h x y
  | repositionOp p1 p2 =>
    exact GridInv_repositionMine h p1 p2 hop.1 hop.2.1 hop.2.2.1 hop.2.2.2

theorem GridInv_applyOps :
    ∀ (ops : List Op) (b : Board), GridInv b →
      (∀ op ∈ ops, opInBounds b.height b.width op) → GridInv (applyOps b ops) := by
  intro ops
  induction ops with
  | nil => exact fun b h _ => h
  | cons op ops ih =>
    intro b h hops
    have hdims := applyOp_dims b op
    refine ih (applyOp b op) (GridInv_applyOp h (hops op (List.mem_cons_self op ops))) ?_
    intro op2 hop2
    rw [hdims.1, hdims.2]
    exact hops op2 (List.mem_cons_of_mem op hop2)

theorem updateNumbers_mem {b : Board} {a c : Nat}
    (hmem : (a, c) ∈ allCellsList b.height b.width) (hnm : b.board a c ≠ -1) :
    (updateNumbers b).board a c = (countAdjacentMines b a c : Int) :=
  foldRecompute_mem _ b a c hmem hnm

theorem mkInitialBoard_gridInv (w h mc : Nat) (draw : Finset (Nat × Nat))
    (hcard : draw.card = mc) (hsub : ∀ p ∈ draw, p.1 < h ∧ p.2 < w) :
    GridInv (mkInitialBoard w h mc draw) := by
  unfold mkInitialBoard
  have nf : NumFix
      { width := w, height := h, mineCount := mc,
        board := fun x y => if (x, y) ∈ draw then -1 else 0,
        revealed := fun _ _ => false, flagged := fun _ _ => false,
        minePositions := draw }
      (updateNumbers
        { width := w, height := h, mineCount := mc,
          board := fun x y => if (x, y) ∈ draw then -1 else 0,
          revealed := fun _ _ => false, flagged := fun _ _ => false,
          minePositions := draw }) :=
    foldRecompute_numFix _ _
  have hb0mine : ∀ a c : Nat,
      ((if ((a : Nat), (c : Nat)) ∈ draw then (-1 : Int) else 0) = -1 ↔ (a, c) ∈ draw) := by
    intro a c
    by_cases hmem : (a, c) ∈ draw
    · rw [if_pos hmem]
      simp [hmem]
    · rw [if_neg hmem]
      constructor
      · intro hcon
        exact absurd hcon (by decide)
      · intro hcon
        exact absurd hcon hmem
  refine ⟨?_, ⟨?_, ?_⟩, ?_⟩
  · intro a ha c hc hnm
    rw [nf.1] at ha
    rw [nf.2.1] at hc
    have hmem : (a, c) ∈ allCellsList h w := mem_allCellsList.mpr ⟨ha, hc⟩
    have hnm0 : (if ((a : Nat), (c : Nat)) ∈ draw then (-1 : Int) else 0) ≠ -1 := by
      intro hcon
      exact hnm ((nf.2.2.2.2.2.2 a c).mpr hcon)
    rw [updateNumbers_mem hmem hnm0, countAdjacentMines_numFix nf a c]
  · intro a ha c hc
    rw [nf.2.2.2.2.2.1, nf.2.2.2.2.2.2 a c, hb0mine a c]
  · intro p hp
    rw [nf.2.2.2.2.2.1] at hp
    rw [nf.1, nf.2.1]
    exact hsub p hp
  · rw [nf.2.2.2.2.2.1, nf.2.2.1]
    exact hcard

/-- C1: grid consistency invariant. A freshly initialized board (from any
successful mine sample) satisfies the full invariant, and it is preserved by
every sequence of in-bounds `reveal`, `toggle_flag` and `reposition_mine`
operations: non-mine values are exact neighbor mine counts, the mine set is
exactly the set of `MINE`-valued cells, and its size equals `mine_count`. -/
theorem claim_C1_grid_invariant :
    ∀ (w h mc : Nat) (draw : Finset (Nat × Nat)) (ops : List Op),
      draw.card = mc → (∀ p ∈ draw, p.1 < h ∧ p.2 < w) →
      (∀ op ∈ ops, opInBounds h w op) →
      GridInv (applyOps (mkInitialBoard w h mc draw) ops) := by
  intro w h mc draw ops hcard hsub hops
  refine GridInv_applyOps ops _ (mkInitialBoard_gridInv w h mc draw hcard hsub) ?_
  have nf : NumFix
      { width := w, height := h, mineCount := mc,
        board := fun x y => if (x, y) ∈ draw then -1 else 0,
        revealed := fun _ _ => false, flagged := fun _ _ => false,
        minePositions := draw }
      (mkInitialBoard w h mc draw) := foldRecompute_numFix _ _
  intro op hop
  rw [show (mkInitialBoard w h mc draw).height = h from nf.1,
    show (mkInitialBoard w h mc draw).width = w from nf.2.1]
  exact hops op hop

/-- C6 counterexample: with `width = height = mineCount = 1` we have
`mineCount ≥ width * height`, yet initialization succeeds (np.random.choice
only fails when asked for more samples than the population), producing a
board with exactly one mine. -/
theorem claim_C6_counterexample :
    1 * 1 ≤ 1 ∧
    initializeBoard 1 1 1 {(0, 0)} = some (mkInitialBoard 1 1 1 {(0, 0)}) ∧
    (mkInitialBoard 1 1 1 {(0, 0)}).minePositions.card = 1 := by
  refine ⟨Nat.le_refl 1, ?_, by decide⟩
  unfold initializeBoard
  rw [if_pos ⟨by decide, by decide⟩]

/-- C6 amended: construction is rejected exactly when
`mineCount > width * height` (no valid sample of distinct cells exists);
whenever `mineCount ≤ width * height` some sample succeeds and the resulting
board has exactly `mineCount` distinct in-bounds mines (and the full grid
invariant). -/
theorem claim_C6_construction_amended :
    ∀ w h mc : Nat,
      (w * h < mc → ∀ draw, initializeBoard w h mc draw = none) ∧
      (mc ≤ w * h → ∃ (draw : Finset (Nat × Nat)) (b0 : Board),
        initializeBoard w h mc draw = some b0 ∧
        b0.minePositions.card = mc ∧ (∀ p ∈ b0.minePositions, p.1 < h ∧ p.2 < w) ∧
        GridInv b0) := by
  intro w h mc
  constructor
  · intro hgt draw
    unfold initializeBoard
    rw [if_neg ?_]
    rintro ⟨hcard, hsub⟩
    have hsubset : draw ⊆ Finset.range h ×ˢ Finset.range w := by
      intro p hp
      rw [Finset.mem_product, Finset.mem_range, Finset.mem_range]
      exact hsub p hp
    have hle := Finset.card_le_card hsubset
    rw [hcard, Finset.card_product, Finset.card_range, Finset.card_range,
      Nat.mul_comm h w] at hle
    omega
  · intro hle
    have hcard : mc ≤ (Finset.range h ×ˢ Finset.range w).card := by
      rw [Finset.card_product, Finset.card_range, Finset.card_range, Nat.mul_comm h w]
      exact hle
    obtain ⟨draw, hsubset, hdcard⟩ := Finset.exists_subset_card_eq hcard
    have hsub : ∀ p ∈ draw, p.1 < h ∧ p.2 < w := by
      intro p hp
      have := hsubset hp
      rw [Finset.mem_product, Finset.mem_range, Finset.mem_range] at this
      exact this
    have nf : NumFix
        { width := w, height := h, mineCount := mc,
          board := fun x y => if (x, y) ∈ draw then -1 else 0,
          revealed := fun _ _ => false, flagged := fun _ _ => false,
          minePositions := draw }
        (mkInitialBoard w h mc draw) := foldRecompute_numFix _ _
    refine ⟨draw, mkInitialBoard w h mc draw, ?_, ?_, ?_,
      mkInitialBoard_gridInv w h mc draw hdcard hsub⟩
    · unfold initializeBoard
      rw [if_pos ⟨hdcard, hsub⟩]
    · rw [show (mkInitialBoard w h mc draw).minePositions = draw from nf.2.2.2.2.2.1]
      exact hdcard
    · intro p hp
      have hb := (mkInitialBoard_gridInv w h mc draw hdcard hsub).2.1.2 p hp
      constructor
      · have hb1 := hb.1
        rw [nf.1] at hb1
        exact hb1
      · have hb2 := hb.2
        rw [nf.2.1] at hb2
        exact hb2

theorem areMovesClustered_iff (ms : List (Nat × Nat)) :
    areMovesClustered ms = true ↔
      List.Pairwise (fun p q => manhattan p q ≤ 3) ms := by
  induction ms with
  | nil => simp [areMovesClustered]
  | cons m ms ih =>
    rw [areMovesClustered, Bool.and_eq_true, List.pairwise_cons, ih, List.all_eq_true]
    constructor
    · rintro ⟨h1, h2⟩
      refine ⟨fun q hq => ?_, h2⟩
      have := h1 q hq
      exact decide_eq_true_eq.mp this
    · rintro ⟨h1, h2⟩
      refine ⟨fun q hq => ?_, h2⟩
      exact decide_eq_true_eq.mpr (h1 q hq)

/-- C8: danger-zone update. Recording a move first removes every zone at
Manhattan distance greater than 5 from the move; then, if the history
(including the new move) has at least 3 entries and the last 3 moves are
pairwise within Manhattan distance 3, their floor centroid becomes a zone
unless already present. Zone lists stay duplicate-free, and the example
moves (0,0), (1,0), (0,1) produce exactly the zone (0,0). -/
theorem claim_C8_danger_zones :
    (∀ (st : AIState) (x y : Nat) (z : Nat × Nat),
      (z ∈ (recordMove st x y).dangerZones ↔
        ((z ∈ st.dangerZones ∧ manhattan z (x, y) ≤ 5) ∨
          (3 ≤ (st.moveHistory ++ [(x, y)]).length ∧
            List.Pairwise (fun p q => manhattan p q ≤ 3)
              ((st.moveHistory ++ [(x, y)]).drop ((st.moveHistory ++ [(x, y)]).length - 3)) ∧
            z = getClusterCenter ((st.moveHistory ++ [(x, y)]).drop
              ((st.moveHistory ++ [(x, y)]).length - 3)))))) ∧
    (∀ (st : AIState) (x y : Nat), st.dangerZones.Nodup →
      (recordMove st x y).dangerZones.Nodup) ∧
    ((recordMove (recordMove (recordMove ⟨[], [], 1⟩ 0 0) 1 0) 0 1).dangerZones
      = [(0, 0)]) := by
  have hzs : ∀ (st : AIState) (x y : Nat) (z : Nat × Nat),
      (z ∈ st.dangerZones.filter (fun z => decide (manhattan z (x, y) ≤ 5)) ↔
        z ∈ st.dangerZones ∧ manhattan z (x, y) ≤ 5) := by
    intro st x y z
    rw [List.mem_filter, decide_eq_true_eq]
  refine ⟨?_, ?_, by decide⟩
  · intro st x y z
    unfold recordMove updateDangerZones
    simp only
    by_cases h3 : 3 ≤ (st.moveHistory ++ [(x, y)]).length
    · rw [if_pos h3]
      by_cases hcl : areMovesClustered
          ((st.moveHistory ++ [(x, y)]).drop ((st.moveHistory ++ [(x, y)]).length - 3))
          = true
      · rw [if_pos hcl]
        rw [areMovesClustered_iff] at hcl
        by_cases hcin : getClusterCenter
            ((st.moveHistory ++ [(x, y)]).drop ((st.moveHistory ++ [(x, y)]).length - 3))
            ∈ st.dangerZones.filter (fun z => decide (manhattan z (x, y) ≤ 5))
        · rw [if_pos hcin]
          simp only
          rw [hzs st x y z]
          constructor
          · exact fun h => Or.inl h
          · rintro (h | ⟨_, _, rfl⟩)
            · exact h
            · exact (hzs st x y _).mp hcin
        · rw [if_neg hcin]
          simp only [List.mem_append, List.mem_singleton]
          rw [hzs st x y z]
          constructor
          · rintro (h | rfl)
            · exact Or.inl h
            · exact Or.inr ⟨h3, hcl, rfl⟩
          · rintro (h | ⟨_, _, rfl⟩)
            · exact Or.inl h
            · exact Or.inr rfl
      · rw [if_neg hcl]
        simp only
        rw [hzs st x y z]
        constructor
        · exact fun h => Or.inl h
        · rintro (h | ⟨_, hp, _⟩)
          · exact h
          · exact absurd ((areMovesClustered_iff _).mpr hp) hcl
    · rw [if_neg h3]
      simp only
      rw [hzs st x y z]
      constructor
      · exact fun h => Or.inl h
      · rintro (h | ⟨hlen, _, _⟩)
        · exact h
        · exact absurd hlen h3
  · intro st x y hnd
    unfold recordMove updateDangerZones
    simp only
    have hndf : (st.dangerZones.filter (fun z => decide (manhattan z (x, y) ≤ 5))).Nodup :=
      hnd.filter _
    by_cases h3 : 3 ≤ (st.moveHistory ++ [(x, y)]).length
    · rw [if_pos h3]
      by_cases hcl : areMovesClustered
          ((st.moveHistory ++ [(x, y)]).drop ((st.moveHistory ++ [(x, y)]).length - 3))
          = true
      · rw [if_pos hcl]
        by_cases hcin : getClusterCenter
            ((st.moveHistory ++ [(x, y)]).drop ((st.moveHistory ++ [(x, y)]).length - 3))
            ∈ st.dangerZones.filter (fun z => decide (manhattan z (x, y) ≤ 5))
        · rw [if_pos hcin]
          exact hndf
        · rw [if_neg hcin]
          simp only
          rw [List.nodup_append]
          exact ⟨hndf, List.nodup_singleton _, by
            intro a ha hb
            rw [List.mem_singleton] at hb
            rw [hb] at ha
            exact hcin ha⟩
      · rw [if_neg hcl]
        exact hndf
    · rw [if_neg h3]
      exact hndf

theorem mem_safeSpotCandidates {b : Board} {p : Nat × Nat} :
    p ∈ safeSpotCandidates b ↔
      p.1 < b.height ∧ p.2 < b.width ∧ b.revealed p.1 p.2 = false ∧
      p ∉ b.minePositions := by
  cases p with
  | mk a c =>
    simp only [safeSpotCandidates, List.mem_flatMap, List.mem_map, List.mem_filter,
      List.mem_range, Bool.and_eq_true, Bool.not_eq_true', decide_eq_true_eq,
      Prod.mk.injEq]
    constructor
    · rintro ⟨x0, hx0, y0, ⟨hy0, hrev, hmine⟩, rfl, rfl⟩
      exact ⟨hx0, hy0, hrev, hmine⟩
    · rintro ⟨ha, hc, hrev, hmine⟩
      exact ⟨a, ha, c, ⟨hc, hrev, hmine⟩, rfl, rfl⟩

/-- C9 counterexample: on the 1x2 board with a revealed 1-valued cell at
(0,0) and a mine at (0,1), every unrevealed cell is a mine, so
`_find_safe_transformation_spot` returns its fallback (0,0) — a revealed
cell — and the defusal branch of `_transform_random_tile` then moves the
mine onto the revealed cell (0,0), contradicting the claim that the target
is always an unrevealed non-mine cell. -/
theorem claim_C9_counterexample :
    findSafeTransformationSpot boardRow 0 = (0, 0) ∧
    boardRow.revealed 0 0 = true ∧
    (transformRandomTile boardRow 0 0 false (0, 1)).board 0 0 = -1 ∧
    (transformRandomTile boardRow 0 0 false (0, 1)).revealed 0 0 = true := by
  refine ⟨by decide, by decide, by decide, by decide⟩

/-- C9 amended: whenever at least one unrevealed non-mine cell exists, the
defusal target chosen by `_find_safe_transformation_spot` is an in-bounds
unrevealed non-mine cell, for every outcome of the random index; if no such
cell exists the fallback (0,0) is returned, which may be revealed or a mine
(see the counterexample). -/
theorem claim_C9_defusal_amended :
    ∀ (b : Board) (r : Nat),
      (∃ a c, a < b.height ∧ c < b.width ∧ b.revealed a c = false ∧
        (a, c) ∉ b.minePositions) →
      (findSafeTransformationSpot b r).1 < b.height ∧
      (findSafeTransformationSpot b r).2 < b.width ∧
      b.revealed (findSafeTransformationSpot b r).1 (findSafeTransformationSpot b r).2
        = false ∧
      findSafeTransformationSpot b r ∉ b.minePositions := by
  intro b r hex
  obtain ⟨a, c, ha, hc, hrev, hmine⟩ := hex
  have hq : (a, c) ∈ safeSpotCandidates b := mem_safeSpotCandidates.mpr ⟨ha, hc, hrev, hmine⟩
  have hne : (safeSpotCandidates b).length ≠ 0 := by
    intro h0
    rw [List.length_eq_zero] at h0
    rw [h0] at hq
    exact List.not_mem_nil _ hq
  unfold findSafeTransformationSpot
  rw [if_neg hne]
  have hlt : r % (safeSpotCandidates b).length < (safeSpotCandidates b).length :=
    Nat.mod_lt _ (Nat.pos_of_ne_zero hne)
  have hmem : (safeSpotCandidates b).getD (r % (safeSpotCandidates b).length) (0, 0)
      ∈ safeSpotCandidates b := by
    rw [List.getD_eq_getElem (safeSpotCandidates b) (0, 0) hlt]
    exact List.getElem_mem hlt
  have := mem_safeSpotCandidates.mp hmem
  exact ⟨this.1, this.2.1, this.2.2.1, this.2.2.2⟩

theorem mem_getSafeMoves {b : Board} {p : Nat × Nat} :
    p ∈ getSafeMoves b ↔
      p.1 < b.height ∧ p.2 < b.width ∧ b.revealed p.1 p.2 = false ∧
      b.flagged p.1 p.2 = false ∧ b.board p.1 p.2 ≠ -1 := by
  cases p with
  | mk a c =>
    simp only [getSafeMoves, List.mem_flatMap, List.mem_map, List.mem_filter,
      List.mem_range, decide_eq_true_eq, Prod.mk.injEq]
    constructor
    · rintro ⟨x0, hx0, y0, ⟨hy0, hrest⟩, rfl, rfl⟩
      exact ⟨hx0, hy0, hrest⟩
    · rintro ⟨ha, hc, hrest⟩
      exact ⟨a, ha, c, ⟨hc, hrest⟩, rfl, rfl⟩

theorem ite_mul_half_comm (P : Prop) [Decidable P] (v : ℚ) :
    (if P then v * (1 / 2) else 0) = if P then (1 / 2) * v else 0 := by
  split
  · ring
  · rfl

/-- On an unrevealed cell, the embedded risk (whose python loop also visits
the offset (0,0), contributing nothing since the cell is unrevealed)
coincides with the spec's 8-neighborhood risk score. -/
theorem calculateMoveRisk_eq_spec {st : AIState} {b : Board} {m : Nat × Nat}
    (hrev : b.revealed m.1 m.2 = false) :
    calculateMoveRisk st b m = riskScoreSpec st b m := by
  unfold calculateMoveRisk riskScoreSpec deltas9 neighborDeltas
  simp only [List.map_cons, List.map_nil, List.sum_cons, List.sum_nil,
    ite_mul_half_comm]
  have e1 : ((m.1 : Int) + 0).toNat = m.1 := by omega
  have e2 : ((m.2 : Int) + 0).toNat = m.2 := by omega
  have h00 : (if 0 ≤ (m.1 : Int) + 0 ∧ (m.1 : Int) + 0 < (b.height : Int) ∧
      0 ≤ (m.2 : Int) + 0 ∧ (m.2 : Int) + 0 < (b.width : Int) ∧
      b.revealed ((m.1 : Int) + 0).toNat ((m.2 : Int) + 0).toNat = true then
      (1 / 2 : ℚ) * (b.board ((m.1 : Int) + 0).toNat ((m.2 : Int) + 0).toNat : ℚ)
      else 0) = 0 := by
    rw [if_neg]
    rintro ⟨_, _, _, _, hr⟩
    rw [e1, e2, hrev] at hr
    exact absurd hr (by simp)
  rw [h00]
  ring

/-- The python `min(move_scores, key=first)` fold returns the first element
of `b0 :: l` attaining the minimal key. -/
theorem foldl_min_first {α : Type} (f : α → ℚ) :
    ∀ (l : List α) (b0 : α),
      ∃ l1 l2,
        b0 :: l = l1 ++ (l.foldl (fun best cur => if f cur < f best then cur else best) b0)
          :: l2 ∧
        (∀ a ∈ l1,
          f (l.foldl (fun best cur => if f cur < f best then cur else best) b0) < f a) ∧
        (∀ a ∈ b0 :: l,
          f (l.foldl (fun best cur => if f cur < f best then cur else best) b0) ≤ f a) := by
  intro l
  induction l with
  | nil =>
    intro b0
    refine ⟨[], [], rfl, fun a ha => absurd ha (List.not_mem_nil a), fun a ha => ?_⟩
    rw [List.mem_singleton] at ha
    subst ha
    exact le_of_eq rfl
  | cons c cs ih =>
    intro b0
    rw [List.foldl_cons]
    by_cases hlt : f c < f b0
    · rw [if_pos hlt]
      obtain ⟨l1, l2, heq, hstrict, hmin⟩ := ih c
      have hrc : f (cs.foldl (fun best cur => if f cur < f best then cur else best) c) ≤ f c :=
        hmin c (List.mem_cons_self c cs)
      refine ⟨b0 :: l1, l2, ?_, ?_, ?_⟩
      · rw [List.cons_append, ← heq]
      · intro a ha
        rcases List.mem_cons.mp ha with rfl | ha2
        · exact lt_of_le_of_lt hrc hlt
        · exact hstrict a ha2
      · intro a ha
        rcases List.mem_cons.mp ha with rfl | ha2
        · exact le_of_lt (lt_of_le_of_lt hrc hlt)
        · exact hmin a ha2
    · rw [if_neg hlt]
      have hge : f b0 ≤ f c := not_lt.mp hlt
      obtain ⟨l1, l2, heq, hstrict, hmin⟩ := ih b0
      cases l1 with
      | nil =>
        rw [List.nil_append, List.cons.injEq] at heq
        have hrb : cs.foldl (fun best cur => if f cur < f best then cur else best) b0 = b0 :=
          heq.1.symm
        refine ⟨[], c :: cs, ?_, fun a ha => absurd ha (List.not_mem_nil a), ?_⟩
        · rw [List.nil_append, hrb]
        · intro a ha
          rcases List.mem_cons.mp ha with rfl | ha2
          · exact hmin a (List.mem_cons_self a cs)
          · rcases List.mem_cons.mp ha2 with rfl | ha3
            · rw [hrb]
              exact hge
            · exact hmin a (List.mem_cons_of_mem b0 ha3)
      | cons hd tl =>
        rw [List.cons_append, List.cons.injEq] at heq
        obtain ⟨hhd, htail⟩ := heq
        have hrb0 : f (cs.foldl (fun best cur => if f cur < f best then cur else best) b0)
            < f b0 := by
          have := hstrict hd (List.mem_cons_self hd tl)
          rw [← hhd] at this
          exact this
        refine ⟨b0 :: c :: tl, l2, ?_, ?_, ?_⟩
        · rw [List.cons_append, List.cons_append, ← htail]
        · intro a ha
          rcases List.mem_cons.mp ha with rfl | ha2
          · exact hrb0
          · rcases List.mem_cons.mp ha2 with rfl | ha3
            · exact lt_of_lt_of_le hrb0 hge
            · exact hstrict a (List.mem_cons_of_mem hd ha3)
        · intro a ha
          rcases List.mem_cons.mp ha with rfl | ha2
          · exact hmin a (List.mem_cons_self a cs)
          · rcases List.mem_cons.mp ha2 with rfl | ha3
            · exact le_of_lt (lt_of_lt_of_le hrb0 hge)
            · exact hmin a (List.mem_cons_of_mem b0 ha3)

/-- The safe-move list is produced in strictly increasing row-major order. -/
theorem getSafeMoves_pairwise (b : Board) :
    List.Pairwise (fun p q : Nat × Nat => p.1 < q.1 ∨ (p.1 = q.1 ∧ p.2 < q.2))
      (getSafeMoves b) := by
  unfold getSafeMoves
  rw [List.pairwise_flatMap]
  constructor
  · intro a _
    refine List.Pairwise.map _ ?_ (List.Pairwise.filter _ (List.pairwise_lt_range b.width))
    intro y1 y2 hy
    exact Or.inr ⟨rfl, hy⟩
  · refine (List.pairwise_lt_range b.height).imp ?_
    intro a1 a2 hlt x hx y hy
    have hx1 : x.1 = a1 := by
      rcases List.mem_map.mp hx with ⟨y0, _, rfl⟩
      rfl
    have hy1 : y.1 = a2 := by
      rcases List.mem_map.mp hy with ⟨y0, _, rfl⟩
      rfl
    rw [hx1, hy1]
    exact Or.inl hlt

/-- C7: hint selection. `get_hint` returns none exactly when no cell is
simultaneously unrevealed, unflagged and non-mine; otherwise it returns a
cell of that kind whose spec risk score (danger-zone term plus half the
revealed 8-neighbor values) is minimal, and among equal-scoring candidates
it is the first in row-major order. -/
theorem claim_C7_hint_selection :
    ∀ (st : AIState) (b : Board),
      ((getHint st b = none) ↔
        ∀ a c, a < b.height → c < b.width →
          ¬(b.revealed a c = false ∧ b.flagged a c = false ∧ b.board a c ≠ -1)) ∧
      (∀ m, getHint st b = some m →
        (m.1 < b.height ∧ m.2 < b.width ∧ b.revealed m.1 m.2 = false ∧
          b.flagged m.1 m.2 = false ∧ b.board m.1 m.2 ≠ -1) ∧
        (∀ m2 : Nat × Nat, m2.1 < b.height → m2.2 < b.width →
          b.revealed m2.1 m2.2 = false → b.flagged m2.1 m2.2 = false →
          b.board m2.1 m2.2 ≠ -1 →
          riskScoreSpec st b m ≤ riskScoreSpec st b m2 ∧
          (riskScoreSpec st b m2 ≤ riskScoreSpec st b m →
            (m = m2 ∨ m.1 < m2.1 ∨ (m.1 = m2.1 ∧ m.2 < m2.2))))) := by
  intro st b
  constructor
  · constructor
    · intro hnone a c ha hc hcand
      have hmem : (a, c) ∈ getSafeMoves b :=
        mem_getSafeMoves.mpr ⟨ha, hc, hcand.1, hcand.2.1, hcand.2.2⟩
      unfold getHint at hnone
      rcases hsm : getSafeMoves b with _ | ⟨m0, ms⟩
      · rw [hsm] at hmem
        exact List.not_mem_nil _ hmem
      · rw [hsm] at hnone
        exact absurd hnone (by simp)
    · intro hno
      unfold getHint
      rcases hsm : getSafeMoves b with _ | ⟨m0, ms⟩
      · rfl
      · exfalso
        have hmem : m0 ∈ getSafeMoves b := by
          rw [hsm]
          exact List.mem_cons_self m0 ms
        have := mem_getSafeMoves.mp hmem
        exact hno m0.1 m0.2 this.1 this.2.1 ⟨this.2.2.1, this.2.2.2.1, this.2.2.2.2⟩
  · intro m hsome
    unfold getHint at hsome
    rcases hsm : getSafeMoves b with _ | ⟨m0, ms⟩
    · rw [hsm] at hsome
      exact absurd hsome (by simp)
    · rw [hsm] at hsome
      have hmeq : ms.foldl
          (fun best cur => if calculateMoveRisk st b cur < calculateMoveRisk st b best
            then cur else best) m0 = m := by
        have := hsome
        simp only [Option.some.injEq] at this
        exact this
      obtain ⟨l1, l2, heq, hstrict, hmin⟩ := foldl_min_first (calculateMoveRisk st b) ms m0
      rw [hmeq] at heq hstrict hmin
      have hmmem : m ∈ getSafeMoves b := by
        rw [hsm, heq]
        exact List.mem_append_right l1 (List.mem_cons_self m l2)
      have hmcand := mem_getSafeMoves.mp hmmem
      refine ⟨hmcand, ?_⟩
      intro m2 h2a h2c h2rev h2fl h2m
      have h2mem : m2 ∈ getSafeMoves b := mem_getSafeMoves.mpr ⟨h2a, h2c, h2rev, h2fl, h2m⟩
      have h2mem2 : m2 ∈ m0 :: ms := hsm ▸ h2mem
      have hrisk_m : calculateMoveRisk st b m = riskScoreSpec st b m :=
        calculateMoveRisk_eq_spec hmcand.2.2.1
      have hrisk_m2 : calculateMoveRisk st b m2 = riskScoreSpec st b m2 :=
        calculateMoveRisk_eq_spec h2rev
      constructor
      · rw [← hrisk_m, ← hrisk_m2]
        exact hmin m2 h2mem2
      · intro hle
        have hpw := getSafeMoves_pairwise b
        rw [hsm, heq] at hpw
        have h2mem3 : m2 ∈ l1 ++ m :: l2 := heq ▸ h2mem2
        rcases List.mem_append.mp h2mem3 with h2l1 | h2r
        · exfalso
          have := hstrict m2 h2l1
          rw [hrisk_m, hrisk_m2] at this
          exact absurd hle (not_le.mpr this)
        · rcases List.mem_cons.mp h2r with rfl | h2l2
          · exact Or.inl rfl
          · refine Or.inr ?_
            have hrel := (List.pairwise_append.mp hpw).2.1
            exact List.rel_of_pairwise_cons hrel h2l2

/-- Witness for C1 at a concrete 2x2 board with one mine and a concrete
reveal/flag/reposition sequence. -/
theorem claim_C1_grid_invariant_witness :
    GridInv (applyOps (mkInitialBoard 2 2 1 {(0, 0)})
      [Op.revealOp 1 1, Op.toggleOp 0 1, Op.repositionOp (0, 0) (1, 0)]) :=
  claim_C1_grid_invariant 2 2 1 {(0, 0)}
    [Op.revealOp 1 1, Op.toggleOp 0 1, Op.repositionOp (0, 0) (1, 0)]
    (by decide) (by decide) (by decide)

/-- Witness for C2: the spec's own example, moving the single mine of a 3x3
board from (0,0) to (2,2). -/
theorem claim_C2_reposition_contract_witness :
    (repositionMine board3x3mine (0, 0) (2, 2)).board 2 2 = -1 :=
  ((claim_C2_reposition_contract board3x3mine (0, 0) (2, 2)
    (by decide) (by decide) (by decide) (by decide)).2 (by decide) (by decide)).1

/-- Witness for C3 on a concrete 1x1 mine-free board: revealing twice is a
NOOP the second time. -/
theorem claim_C3_reveal_contract_witness :
    reveal (reveal board1x1 0 0).2 0 0 = (Outcome.NOOP, (reveal board1x1 0 0).2) :=
  (claim_C3_reveal_contract board1x1 0 0 (by decide) (by decide)).2.1

/-- Witness for C4 on a concrete 2x2 mine-free board: revealing (0,0)
flood-reveals the far corner (1,1). -/
theorem claim_C4_flood_fill_witness :
    (reveal board2x2zero 0 0).2.revealed 1 1 = true :=
  claim_C4_flood_fill.2.1 board2x2zero 0 0
    (by decide) (fun a c _ _ => by simp [board2x2zero]) (fun _ _ => rfl) (fun _ _ => rfl)
    (by decide) (by decide) 1 1 (by decide) (by decide)

/-- Witness for C6 (amended): asking for 5 mines on a 2x2 board makes every
draw fail. -/
theorem claim_C6_construction_amended_witness :
    initializeBoard 2 2 5 ∅ = none :=
  (claim_C6_construction_amended 2 2 5).1 (by decide) ∅

/-- Witness for C7 on the concrete 1x1 mine-free board with no danger
zones: the hint is its unique candidate (0,0), which is in bounds,
unrevealed, unflagged and not a mine. -/
theorem claim_C7_hint_selection_witness :
    (0 : Nat) < board1x1.height ∧ (0 : Nat) < board1x1.width ∧
    board1x1.revealed 0 0 = false ∧ board1x1.flagged 0 0 = false ∧
    board1x1.board 0 0 ≠ -1 :=
  ((claim_C7_hint_selection ⟨[], [], 1⟩ board1x1).2 (0, 0) (by decide)).1

/-- Witness for C8 at a concrete state: recording a move keeps the zone list
duplicate-free. -/
theorem claim_C8_danger_zones_witness :
    (recordMove ⟨[(0, 0)], [(1, 1)], 1⟩ 0 1).dangerZones.Nodup :=
  claim_C8_danger_zones.2.1 ⟨[(0, 0)], [(1, 1)], 1⟩ 0 1 (by decide)

/-- Witness for C9 (amended) on the concrete 1x1 mine-free board: the
defusal target is an unrevealed cell. -/
theorem claim_C9_defusal_amended_witness :
    board1x1.revealed (findSafeTransformationSpot board1x1 0).1
      (findSafeTransformationSpot board1x1 0).2 = false :=
  (claim_C9_defusal_amended board1x1 0
    ⟨0, 0, by decide, by decide, rfl, by decide⟩).2.2.1

/-- Witness for C10 on a concrete 2x2 board with one mine: revealing the
far corner leaves the mine unrevealed. -/
theorem claim_C10_no_mine_disclosure_witness :
    (reveal board2x2mine 1 1).2.revealed 0 0 = board2x2mine.revealed 0 0 :=
  claim_C10_no_mine_disclosure board2x2mine 1 1
    (by decide) (by decide) (by decide) rfl rfl (by decide) 0 0 (by decide)

end Minesweeper
